import Mathlib

/-!
Shallow embedding of the Ledger & Settlement Engine of the expense-backend
repository, and verification of the frozen claims about it.

Monetary values are embedded as exact rationals.  The JavaScript idiom
parseFloat(x.toFixed(2)) is embedded as decimal rounding to 2 places with
ties going up (the ECMAScript toFixed specification picks the larger
candidate integer on a tie).  The EXACT-split comparison of claim C10 is
about genuine IEEE-754 binary64 behaviour, so for that one claim a separate
model of the accumulation with round-to-nearest-even binary64 rounding is
provided further below.

Source functions embedded here:
  - calculateSplits           (src/unnamed/part_005, expense.service)
  - createExpense validation  (src/src/controllers/expense.controller.js)
  - calculateBalances         (balance.service, in expense.controller.js bundle)
  - minimizeCashFlow          (balance.service, in expense.controller.js bundle)
-/

/-- Rounding to 2 decimal places, the embedding of parseFloat(x.toFixed(2)):
the ECMAScript toFixed picks the integer n minimising the distance of n/100
to x, and the larger n on ties, which is the floor of 100x + 1/2. -/
def round2 (q : ℚ) : ℚ := (⌊q * 100 + 1/2⌋ : ℚ) / 100

/-- Truncation to 2 decimal places (used only to state what the spec text of
claim C4 asserts, namely that EQUAL shares are truncated; the code rounds). -/
def truncate2 (q : ℚ) : ℚ := (⌊q * 100⌋ : ℚ) / 100

/-- A rational is a whole number of cents: its hundredfold is an integer.
This is the spec's MonetaryAmount notion (integer minor units). -/
def Cents (q : ℚ) : Prop := (q * 100).den = 1

instance (q : ℚ) : Decidable (Cents q) := by unfold Cents; infer_instance

/-- One participant record of the splitBetween array handed to
calculateSplits: the source reads split.userId, split.amount (EXACT) and
split.percentage (PERCENTAGE).  Fields that a given split type does not read
are simply carried along. -/
structure SplitInput where
  userId : ℕ
  amount : ℚ
  percentage : ℚ
deriving DecidableEq

/-- One computed split as pushed by calculateSplits; the PERCENTAGE branch
additionally records the percentage on the split object, the other branches
do not, hence the Option. -/
structure Split where
  userId : ℕ
  amount : ℚ
  percentage : Option ℚ
deriving DecidableEq

/-- The throw sites of calculateSplits and of the createExpense validation,
modelled structurally (the AppError messages are string renderings of
exactly these data; every one of them carries HTTP status 400). -/
inductive SplitErr where
  | emptyParticipants : SplitErr
  | invalidSplitType : SplitErr
  | exactSumMismatch : ℚ → ℚ → SplitErr
  | percentageSumMismatch : ℚ → SplitErr
deriving DecidableEq

/-- Embedding of calculateSplits (src/unnamed/part_005 lines 7-70).  The
switch on the splitType string is an equality dispatch, embedded as an
if-chain; the default case throws the invalid-split-type error.  In the
EXACT and PERCENTAGE branches the source pushes all splits and only then
compares the accumulated total, so the returned value is the same as
checking first. -/
def calculateSplits (amount : ℚ) (splitType : String) (splitBetween : List SplitInput) :
    Except SplitErr (List Split) :=
  if splitType = "EQUAL" then
    let splitAmount := round2 (amount / (splitBetween.length : ℚ))
    let lastAmount := amount - splitAmount * ((splitBetween.length - 1 : ℕ) : ℚ)
    .ok (splitBetween.enum.map (fun p =>
      if p.1 = splitBetween.length - 1 then ⟨p.2.userId, round2 lastAmount, none⟩
      else ⟨p.2.userId, splitAmount, none⟩))
  else if splitType = "EXACT" then
    let totalAmount := (splitBetween.map (fun p => p.amount)).sum
    if totalAmount ≠ amount then .error (.exactSumMismatch totalAmount amount)
    else .ok (splitBetween.map (fun p => ⟨p.userId, p.amount, none⟩))
  else if splitType = "PERCENTAGE" then
    let totalPercentage := (splitBetween.map (fun p => p.percentage)).sum
    if totalPercentage ≠ 100 then .error (.percentageSumMismatch totalPercentage)
    else .ok (splitBetween.map (fun p =>
      ⟨p.userId, round2 (amount * p.percentage / 100), some p.percentage⟩))
  else .error .invalidSplitType

/-- The spec-level computeSplits operation: the createExpense controller
(expense.controller.js lines 21-23) rejects an empty splitBetween array
before the service calls calculateSplits. -/
def computeSplits (amount : ℚ) (splitType : String) (splitBetween : List SplitInput) :
    Except SplitErr (List Split) :=
  if splitBetween.length = 0 then .error .emptyParticipants
  else calculateSplits amount splitType splitBetween

/-- First-match lookup in an association list, the embedding of
Map.prototype.get (a JavaScript Map has at most one entry per key). -/
def mapFind : List (ℕ × ℚ) → ℕ → Option ℚ
  | [], _ => none
  | (a, b) :: t, k => if a = k then some b else mapFind t k

/-- Map.prototype.has. -/
def mapHas (m : List (ℕ × ℚ)) (k : ℕ) : Prop := (mapFind m k).isSome

instance (m : List (ℕ × ℚ)) (k : ℕ) : Decidable (mapHas m k) := by
  unfold mapHas; infer_instance

/-- Map.prototype.get with the 0 default the source always establishes
before reading. -/
def mapGet (m : List (ℕ × ℚ)) (k : ℕ) : ℚ := (mapFind m k).getD 0

/-- Map.prototype.set: overwrite in place when the key is present (keeping
its position in insertion order), append otherwise. -/
def mapSet : List (ℕ × ℚ) → ℕ → ℚ → List (ℕ × ℚ)
  | [], k, v => [(k, v)]
  | (a, b) :: t, k, v => if a = k then (a, v) :: t else (a, b) :: mapSet t k v

/-- One row of expense.splits as consumed by calculateBalances (split.userId
and split.amount are read). -/
structure BalSplit where
  userId : ℕ
  amount : ℚ
deriving DecidableEq

/-- One expense row as consumed by calculateBalances: paidById, amount and
the loaded splits. -/
structure BalExpense where
  paidById : ℕ
  amount : ℚ
  splits : List BalSplit
deriving DecidableEq

/-- The split.forEach body of calculateBalances: initialise the user to 0 if
absent, then subtract the share. -/
def applySplit (m : List (ℕ × ℚ)) (s : BalSplit) : List (ℕ × ℚ) :=
  let m1 := if mapHas m s.userId then m else mapSet m s.userId 0
  mapSet m1 s.userId (mapGet m1 s.userId - s.amount)

/-- The expenses.forEach body of calculateBalances: credit the payer with the
full amount, then debit every split participant. -/
def applyExpense (m : List (ℕ × ℚ)) (e : BalExpense) : List (ℕ × ℚ) :=
  let m1 := if mapHas m e.paidById then m else mapSet m e.paidById 0
  let m2 := mapSet m1 e.paidById (mapGet m1 e.paidById + e.amount)
  e.splits.foldl applySplit m2

/-- Embedding of calculateBalances (balance.service lines 159-188 of the
bundled controller file): fold the expenses into a userId-to-net-amount Map,
starting from the empty Map.  The association list preserves Map insertion
order. -/
def calculateBalances (expenses : List BalExpense) : List (ℕ × ℚ) :=
  expenses.foldl applyExpense []

/-- Sum of the values of a balance map / working balance list. -/
def sumAmts (l : List (ℕ × ℚ)) : ℚ := (l.map Prod.snd).sum

/-- The keys of a balance list, in order. -/
def keys (l : List (ℕ × ℚ)) : List ℕ := l.map Prod.fst

/-- Total value attached to a user in a balance list (with unique keys this
is the user's single entry, and 0 for absent users). -/
def amtOf (l : List (ℕ × ℚ)) (u : ℕ) : ℚ :=
  (l.map (fun p => if p.1 = u then p.2 else 0)).sum

/-- One simplified transaction as pushed by minimizeCashFlow; the source
fields are named from and to, renamed here because from is a Lean keyword
(the spec calls them fromUserId and toUserId). -/
structure Txn where
  fromUserId : ℕ
  toUserId : ℕ
  amount : ℚ
deriving DecidableEq

/-- Amount stored at position i of the working balance list (reads of
nonZeroBalances[i].amount). -/
def amtAt (s : List (ℕ × ℚ)) (i : ℕ) : ℚ := (s.getD i (0, 0)).2

/-- The maximum-credit reduce of minimizeCashFlow: starting from index 0,
replace the candidate whenever a strictly larger amount is found (so the
first occurrence of the maximum wins). -/
def maxCreditIdx (s : List (ℕ × ℚ)) : ℕ :=
  (List.range s.length).foldl (fun m i => if amtAt s i > amtAt s m then i else m) 0

/-- The maximum-debit reduce of minimizeCashFlow: first occurrence of the
minimum amount. -/
def maxDebitIdx (s : List (ℕ × ℚ)) : ℕ :=
  (List.range s.length).foldl (fun m i => if amtAt s i < amtAt s m then i else m) 0

/-- One iteration of the while loop of minimizeCashFlow.  The source mutates
the two selected row objects and then splices rows whose amount is within
the 0.01 epsilon out of the array; when the credit row was already spliced
off, the debit removal index is shifted down by one.  When the two reduces
select the same index, both mutations hit the same object, which is exactly
what reading the updated value at the debit index reproduces. -/
def mcfStep (s : List (ℕ × ℚ)) : List (ℕ × ℚ) × Txn :=
  let ci := maxCreditIdx s
  let di := maxDebitIdx s
  let c := s.getD ci (0, 0)
  let d := s.getD di (0, 0)
  let m := min |c.2| |d.2|
  let t : Txn := ⟨d.1, c.1, round2 m⟩
  let s1 := s.set ci (c.1, c.2 - m)
  let s2 := s1.set di (d.1, (s1.getD di (0, 0)).2 + m)
  let creditZero := |(s2.getD ci (0, 0)).2| < 1/100
  let s3 := if creditZero then s2.eraseIdx ci else s2
  let debitAmt := (s2.getD di (0, 0)).2
  if |debitAmt| < 1/100 then
    let ri := if di > ci ∧ creditZero then di - 1 else di
    (s3.eraseIdx ri, t)
  else (s3, t)

/-- The while loop of minimizeCashFlow, run on fuel.  The source loop has no
iteration bound; it terminates exactly when the working list is down to at
most one row.  Every terminating execution removes at least one row per
iteration (an iteration that removes nothing leaves the working list
unchanged forever after), so fuel equal to the initial length reproduces
every terminating execution, and none models a run the source would never
finish. -/
def mcfRun : ℕ → List (ℕ × ℚ) → List Txn → Option (List Txn)
  | 0, s, acc => if s.length ≤ 1 then some acc else none
  | fuel + 1, s, acc =>
    if s.length ≤ 1 then some acc
    else
      let sc := mcfStep s
      mcfRun fuel sc.1 (acc ++ [sc.2])

/-- Embedding of minimizeCashFlow (balance.service lines 191-248 of the
bundled controller file): round every Map entry to 2 decimals, drop entries
whose absolute amount is not above the 0.01 epsilon, then run the greedy
settlement loop. -/
def minimizeCashFlow (balances : List (ℕ × ℚ)) : Option (List Txn) :=
  let balanceList := balances.map (fun p => (p.1, round2 p.2))
  let nonZeroBalances := balanceList.filter (fun p => decide (1/100 < |p.2|))
  mcfRun nonZeroBalances.length nonZeroBalances []

/-- Total amount of the transfers directed to user u in a transaction list. -/
def totalTo (u : ℕ) (ts : List Txn) : ℚ :=
  (ts.map (fun t => if t.toUserId = u then t.amount else 0)).sum

/-- Total amount of the transfers sent from user u in a transaction list. -/
def totalFrom (u : ℕ) (ts : List Txn) : ℚ :=
  (ts.map (fun t => if t.fromUserId = u then t.amount else 0)).sum

/-- Round a rational to the nearest integer, ties to even. -/
def roundNearestEven (q : ℚ) : ℤ :=
  if q - (⌊q⌋ : ℚ) < 1/2 then ⌊q⌋
  else if 1/2 < q - (⌊q⌋ : ℚ) then ⌊q⌋ + 1
  else if ⌊q⌋ % 2 = 0 then ⌊q⌋ else ⌊q⌋ + 1

/-- Round a rational to the nearest IEEE-754 binary64 value (normal range:
a 53-bit significand scaled so that it lies in the interval from 2 to the 52
up to 2 to the 53, rounded to nearest with ties to even; overflow and
subnormals are outside the range this development uses).  This is the value
semantics of every JavaScript number literal and arithmetic result. -/
def fl (q : ℚ) : ℚ :=
  if q = 0 then 0
  else
    (if q < 0 then -1 else 1) *
      (roundNearestEven (|q| * (2 : ℚ) ^ (52 - Int.log 2 |q|)) : ℚ) *
      (2 : ℚ) ^ (Int.log 2 |q| - 52)

/-- The running totalAmount accumulation of the EXACT branch of
calculateSplits under binary64 semantics: totalAmount starts at 0 and every
compound assignment totalAmount += split.amount rounds the sum. -/
def exactTotalFP (amounts : List ℚ) : ℚ :=
  amounts.foldl (fun acc a => fl (acc + a)) 0

/-- The EXACT branch of calculateSplits under binary64 semantics (the branch
of src/unnamed/part_005 lines 27-43 with JavaScript number arithmetic): the
accumulated floating-point total is compared to the amount with strict
inequality, and a mismatch throws the exact-sum error. -/
def calculateSplitsExactFP (amount : ℚ) (splitBetween : List SplitInput) :
    Except SplitErr (List Split) :=
  let totalAmount := exactTotalFP (splitBetween.map (fun p => p.amount))
  if totalAmount ≠ amount then .error (.exactSumMismatch totalAmount amount)
  else .ok (splitBetween.map (fun p => ⟨p.userId, p.amount, none⟩))

/-- One iteration of the minimizeCashFlow while loop under binary64 number
semantics: the same selection, update, record and splice logic as mcfStep,
with every arithmetic result rounded to the nearest double (fl) exactly where
the JavaScript evaluation rounds: the compound assignments -= and += on the
working amounts, and the recorded amount parseFloat(minAmount.toFixed(2)),
whose 2-decimal output string is re-read as the nearest double.  Math.abs and
Math.min are exact on doubles, and the literal 0.01 of the splice comparisons
is the double fl (1/100). -/
def mcfStepFP (s : List (ℕ × ℚ)) : List (ℕ × ℚ) × Txn :=
  let ci := maxCreditIdx s
  let di := maxDebitIdx s
  let c := s.getD ci (0, 0)
  let d := s.getD di (0, 0)
  let m := min |c.2| |d.2|
  let t : Txn := ⟨d.1, c.1, fl (round2 m)⟩
  let s1 := s.set ci (c.1, fl (c.2 - m))
  let s2 := s1.set di (d.1, fl ((s1.getD di (0, 0)).2 + m))
  let creditZero := |(s2.getD ci (0, 0)).2| < fl (1/100)
  let s3 := if creditZero then s2.eraseIdx ci else s2
  let debitAmt := (s2.getD di (0, 0)).2
  if |debitAmt| < fl (1/100) then
    let ri := if di > ci ∧ creditZero then di - 1 else di
    (s3.eraseIdx ri, t)
  else (s3, t)

/-- Characterisation used to evaluate the base-2 integer logarithm on
concrete rationals. -/
lemma intLog2_eq {r : ℚ} (hr : 0 < r) (n : ℤ) (h1 : (2:ℚ)^n ≤ r) (h2 : r < (2:ℚ)^(n+1)) :
    Int.log 2 r = n := by
  have ha : n ≤ Int.log 2 r :=
    (Int.zpow_le_iff_le_log (b := 2) (by norm_num) hr (x := n)).mp (by exact_mod_cast h1)
  have hb : Int.log 2 r < n + 1 :=
    (Int.lt_zpow_iff_log_lt (b := 2) (by norm_num) hr (x := n + 1)).mp (by exact_mod_cast h2)
  omega

/-- Evaluation helper for roundNearestEven once the floor is known. -/
lemma rne_eval (q : ℚ) (f : ℤ) (hf : ⌊q⌋ = f) :
    roundNearestEven q = if q - (f : ℚ) < 1/2 then f
      else if 1/2 < q - (f : ℚ) then f + 1
      else if f % 2 = 0 then f else f + 1 := by
  rw [roundNearestEven, hf]

/-- Evaluation helper for fl on positive rationals once the binade is known. -/
lemma fl_pos_eval (q : ℚ) (hq : 0 < q) (n : ℤ) (h1 : (2:ℚ)^n ≤ q) (h2 : q < (2:ℚ)^(n+1)) :
    fl q = (roundNearestEven (q * (2 : ℚ) ^ (52 - n)) : ℚ) * (2 : ℚ) ^ (n - 52) := by
  have habs : |q| = q := abs_of_pos hq
  rw [fl, if_neg (ne_of_gt hq), if_neg (not_lt.mpr (le_of_lt hq)), habs,
    intLog2_eq hq n h1 h2, one_mul]

/-- The binary64 value of the JavaScript literal 0.1. -/
lemma fl_tenth : fl (1/10) = 3602879701896397 / 2^55 := by
  rw [fl_pos_eval _ (by norm_num) (-4) (by norm_num) (by norm_num)]
  rw [show (52 - (-4) : ℤ) = 56 from rfl, show ((-4) - 52 : ℤ) = -56 from rfl]
  rw [rne_eval _ 7205759403792793 (by norm_num)]
  norm_num

/-- The binary64 value of the JavaScript literal 0.2. -/
lemma fl_fifth : fl (2/10) = 3602879701896397 / 2^54 := by
  rw [fl_pos_eval _ (by norm_num) (-3) (by norm_num) (by norm_num)]
  rw [show (52 - (-3) : ℤ) = 55 from rfl, show ((-3) - 52 : ℤ) = -55 from rfl]
  rw [rne_eval _ 7205759403792793 (by norm_num)]
  norm_num

/-- The binary64 value of the JavaScript literal 0.3. -/
lemma fl_threeTenths : fl (3/10) = 5404319552844595 / 2^54 := by
  rw [fl_pos_eval _ (by norm_num) (-2) (by norm_num) (by norm_num)]
  rw [show (52 - (-2) : ℤ) = 54 from rfl, show ((-2) - 52 : ℤ) = -54 from rfl]
  rw [rne_eval _ 5404319552844595 (by norm_num)]
  norm_num

/-- The binary64 sum of the doubles 0.1 and 0.2: the exact sum has a 54-bit
significand ending in an exact tie, which rounds up to the even mantissa,
giving the familiar 0.30000000000000004. -/
lemma fl_sum_tenth_fifth :
    fl (3602879701896397 / 2^55 + 3602879701896397 / 2^54) = 5404319552844596 / 2^54 := by
  rw [fl_pos_eval _ (by norm_num) (-2) (by norm_num) (by norm_num)]
  rw [show (52 - (-2) : ℤ) = 54 from rfl, show ((-2) - 52 : ℤ) = -54 from rfl]
  rw [rne_eval _ 5404319552844595 (by norm_num)]
  norm_num

/-- The binary64 value of the double 0.1 is already rounded: fl fixes it. -/
lemma fl_fix_tenth : fl (3602879701896397 / 2^55) = 3602879701896397 / 2^55 := by
  rw [fl_pos_eval _ (by norm_num) (-4) (by norm_num) (by norm_num)]
  rw [show (52 - (-4) : ℤ) = 56 from rfl, show ((-4) - 52 : ℤ) = -56 from rfl]
  rw [rne_eval _ 7205759403792794 (by norm_num)]
  norm_num

/-- fl of zero is zero. -/
lemma fl_zero : fl 0 = 0 := by
  rw [fl]
  norm_num

/-- fl commutes with negation (the binary64 format is sign-symmetric). -/
lemma fl_neg (q : ℚ) : fl (-q) = -fl q := by
  rcases lt_trichotomy q 0 with h | h | h
  · have hq : q ≠ 0 := ne_of_lt h
    have hnq : -q ≠ 0 := neg_ne_zero.mpr hq
    rw [fl, fl, if_neg hnq, if_neg hq, abs_neg,
      if_neg (by linarith : ¬ (-q < 0)), if_pos h]
    ring
  · rw [h]
    norm_num [fl]
  · have hq : q ≠ 0 := ne_of_gt h
    have hnq : -q ≠ 0 := neg_ne_zero.mpr hq
    rw [fl, fl, if_neg hnq, if_neg hq, abs_neg,
      if_pos (by linarith : -q < 0), if_neg (by linarith : ¬ q < 0)]
    ring

/-- The binary64 value of the JavaScript literal 0.01 (the epsilon of the
splice comparisons). -/
lemma fl_hundredth : fl (1/100) = 5764607523034235 / 2^59 := by
  rw [fl_pos_eval _ (by norm_num) (-7) (by norm_num) (by norm_num)]
  rw [show (52 - (-7) : ℤ) = 59 from rfl, show ((-7) - 52 : ℤ) = -59 from rfl]
  rw [rne_eval _ 5764607523034234 (by norm_num)]
  norm_num

/-- The double 0.3 minus the double 0.2 is computed exactly (Sterbenz):
the result is the double 0.09999999999999998, not the double 0.1. -/
lemma fl_drift : fl (900719925474099 / 9007199254740992) =
    900719925474099 / 9007199254740992 := by
  rw [fl_pos_eval _ (by norm_num) (-4) (by norm_num) (by norm_num)]
  rw [show (52 - (-4) : ℤ) = 56 from rfl, show ((-4) - 52 : ℤ) = -56 from rfl]
  rw [rne_eval _ 7205759403792792 (by norm_num)]
  norm_num

/-- The binary64 value of the decimal 0.2 written as 1/5 (the output of
round2 on the double 0.2). -/
lemma fl_fifth5 : fl (1/5) = 3602879701896397 / 2^54 := by
  rw [show (1:ℚ)/5 = 2/10 by norm_num]
  exact fl_fifth

/-- The power of two 2 to the -55 is exactly representable. -/
lemma fl_pow55 : fl (1 / 36028797018963968) = 1 / 36028797018963968 := by
  rw [fl_pos_eval _ (by norm_num) (-55) (by norm_num) (by norm_num)]
  rw [show (52 - (-55) : ℤ) = 107 from rfl, show ((-55) - 52 : ℤ) = -107 from rfl]
  rw [rne_eval _ 4503599627370496 (by norm_num)]
  norm_num

/-- The floating-point running total of the EXACT branch on the doubles for
0.1 and 0.2. -/
lemma exactTotalFP_tenth_fifth :
    exactTotalFP [fl (1/10), fl (2/10)] = 5404319552844596 / 2^54 := by
  rw [exactTotalFP, fl_tenth, fl_fifth]
  show fl (fl (0 + 3602879701896397 / 2^55) + 3602879701896397 / 2^54) = _
  rw [zero_add, fl_fix_tenth, fl_sum_tenth_fifth]

/-- C10: calculateSplits with the EXACT policy compares the accumulated
floating-point sum of the participants' amounts to the expense amount with
strict inequality, so for the input whose decimal values are amount 0.3 and
exact splits 0.1 and 0.2 (which sum to the amount as decimals) the call
fails with the sum-mismatch error: under binary64 semantics the literals
denote fl(1/10), fl(2/10) and fl(3/10), and the rounded running total of the
first two differs from the third. -/
theorem C10_exact_float_strict_mismatch :
    (1:ℚ)/10 + 2/10 = 3/10 ∧
    exactTotalFP [fl (1/10), fl (2/10)] ≠ fl (3/10) ∧
    calculateSplitsExactFP (fl (3/10)) [⟨1, fl (1/10), 0⟩, ⟨2, fl (2/10), 0⟩] =
      .error (.exactSumMismatch (5404319552844596 / 2^54) (5404319552844595 / 2^54)) := by
  refine ⟨by norm_num, ?_, ?_⟩
  · rw [exactTotalFP_tenth_fifth, fl_threeTenths]
    norm_num
  · rw [calculateSplitsExactFP]
    have htot : exactTotalFP (([⟨1, fl (1/10), 0⟩, ⟨2, fl (2/10), 0⟩] : List SplitInput).map
        (fun p => p.amount)) = (5404319552844596 : ℚ) / 2^54 := by
      show exactTotalFP [fl (1/10), fl (2/10)] = _
      exact exactTotalFP_tenth_fifth
    rw [htot, fl_threeTenths, if_pos (by norm_num)]

/-- C7: computeSplits fails with the invalid-split-type error for every
policy outside EQUAL, EXACT and PERCENTAGE (whenever the participant list is
non-empty, since the empty check of the controller runs first), and fails
with the empty-participants error for every call with an empty participant
list, regardless of the policy. -/
theorem C7_invalid_type_and_empty_participants :
    (∀ (amount : ℚ) (splitType : String) (ps : List SplitInput),
      splitType ∉ (["EQUAL", "EXACT", "PERCENTAGE"] : List String) → ps ≠ [] →
        computeSplits amount splitType ps = .error .invalidSplitType) ∧
    (∀ (amount : ℚ) (splitType : String),
      computeSplits amount splitType [] = .error .emptyParticipants) := by
  constructor
  · intro amount splitType ps hmem hne
    simp only [List.mem_cons, List.not_mem_nil, or_false, not_or] at hmem
    obtain ⟨h1, h2, h3⟩ := hmem
    rw [computeSplits, if_neg (by simpa [List.length_eq_zero] using hne),
      calculateSplits, if_neg h1, if_neg h2, if_neg h3]
  · intro amount splitType
    rw [computeSplits, if_pos (by simp : ([] : List SplitInput).length = 0)]

/-- C7 witness: a concrete bogus policy on a non-empty list, and a concrete
empty call. -/
theorem C7_witness :
    ("SHARES" ∉ (["EQUAL", "EXACT", "PERCENTAGE"] : List String)) ∧
    ([⟨0, 0, 0⟩] : List SplitInput) ≠ [] ∧
    computeSplits 10 "SHARES" [⟨0, 0, 0⟩] = .error .invalidSplitType ∧
    computeSplits 10 "EQUAL" [] = .error .emptyParticipants :=
  ⟨by decide, by simp,
    C7_invalid_type_and_empty_participants.1 10 "SHARES" [⟨0, 0, 0⟩] (by decide) (by simp),
    C7_invalid_type_and_empty_participants.2 10 "EQUAL"⟩

/-- C6: calculateSplits with the PERCENTAGE policy fails with the
percentage-sum-mismatch error exactly when the percentages do not sum to
100, and otherwise returns for each participant the share
round2(amount * percentage / 100), with no correction of the rounding
residual: witness the concrete instance amount 0.03 with two 50 percent
shares, where the shares sum to 0.04, not 0.03. -/
theorem C6_percentage_split :
    (∀ (amount : ℚ) (ps : List SplitInput),
      ((ps.map (fun p => p.percentage)).sum ≠ 100 →
        calculateSplits amount "PERCENTAGE" ps =
          .error (.percentageSumMismatch (ps.map (fun p => p.percentage)).sum)) ∧
      ((ps.map (fun p => p.percentage)).sum = 100 →
        calculateSplits amount "PERCENTAGE" ps =
          .ok (ps.map (fun p =>
            ⟨p.userId, round2 (amount * p.percentage / 100), some p.percentage⟩)))) ∧
    (calculateSplits (3/100) "PERCENTAGE" [⟨0, 0, 50⟩, ⟨1, 0, 50⟩] =
        .ok [⟨0, 2/100, some 50⟩, ⟨1, 2/100, some 50⟩] ∧
      (2/100 : ℚ) + 2/100 ≠ 3/100) := by
  refine ⟨fun amount ps => ⟨fun hne => ?_, fun heq => ?_⟩, ?_, by norm_num⟩
  · rw [calculateSplits, if_neg (by decide), if_neg (by decide), if_pos rfl, if_pos hne]
  · rw [calculateSplits, if_neg (by decide), if_neg (by decide), if_pos rfl,
      if_neg (by simpa using heq)]
  · rw [calculateSplits, if_neg (by decide), if_neg (by decide), if_pos rfl,
      if_neg (by norm_num)]
    norm_num [round2]

/-- C6 witness: both directions at concrete inputs: percentages summing to
30 are rejected with that total, and a single participant at 100 percent of
amount 10 receives the whole rounded amount. -/
theorem C6_witness :
    (([⟨0, 0, 30⟩] : List SplitInput).map (fun p => p.percentage)).sum ≠ 100 ∧
    calculateSplits 10 "PERCENTAGE" [⟨0, 0, 30⟩] = .error (.percentageSumMismatch 30) ∧
    (([⟨0, 0, 100⟩] : List SplitInput).map (fun p => p.percentage)).sum = 100 ∧
    calculateSplits 10 "PERCENTAGE" [⟨0, 0, 100⟩] = .ok [⟨0, 10, some 100⟩] := by
  refine ⟨by norm_num, ?_, by norm_num, ?_⟩
  · have h := (C6_percentage_split.1 10 [⟨0, 0, 30⟩]).1 (by norm_num)
    simpa using h
  · have h := (C6_percentage_split.1 10 [⟨0, 0, 100⟩]).2 (by norm_num)
    rw [h]
    norm_num [round2]

/-- First iteration on the non-zero-sum caller-bug input: 3 flows from user
1 to user 0. -/
lemma mcfStep_53 : mcfStep [(0, 5), (1, 3)] = ([(0, 2), (1, 6)], ⟨1, 0, 3⟩) := by
  norm_num [mcfStep, maxCreditIdx, maxDebitIdx, amtAt, round2, List.range_succ]

/-- Second iteration: 2 flows back from user 0 to user 1, reaching equal
balances. -/
lemma mcfStep_26 : mcfStep [(0, 2), (1, 6)] = ([(0, 4), (1, 4)], ⟨0, 1, 2⟩) := by
  norm_num [mcfStep, maxCreditIdx, maxDebitIdx, amtAt, round2, List.range_succ]

/-- With equal balances both reduces pick index 0, the two mutations cancel
on the shared row, nothing is removed, and a self-transfer is pushed: the
state is a fixed point of the loop body. -/
lemma mcfStep_stall : mcfStep [(0, 4), (1, 4)] = ([(0, 4), (1, 4)], ⟨0, 0, 4⟩) := by
  norm_num [mcfStep, maxCreditIdx, maxDebitIdx, amtAt, round2, List.range_succ]

/-- The loop never leaves the equal-balances state, whatever the fuel. -/
lemma mcfRun_stall : ∀ (fuel : ℕ) (acc : List Txn), mcfRun fuel [(0, 4), (1, 4)] acc = none := by
  intro fuel
  induction fuel with
  | zero => intro acc; rw [mcfRun]; norm_num
  | succ n ih =>
    intro acc
    rw [mcfRun]
    rw [if_neg (by norm_num)]
    show mcfRun n (mcfStep [(0, 4), (1, 4)]).1 (acc ++ [(mcfStep [(0, 4), (1, 4)]).2]) = none
    rw [mcfStep_stall]
    exact ih _

/-- The loop never terminates from the second intermediate state either. -/
lemma mcfRun_26 : ∀ (fuel : ℕ) (acc : List Txn), mcfRun fuel [(0, 2), (1, 6)] acc = none := by
  intro fuel
  cases fuel with
  | zero => intro acc; rw [mcfRun]; norm_num
  | succ n =>
    intro acc
    rw [mcfRun]
    rw [if_neg (by norm_num)]
    show mcfRun n (mcfStep [(0, 2), (1, 6)]).1 (acc ++ [(mcfStep [(0, 2), (1, 6)]).2]) = none
    rw [mcfStep_26]
    exact mcfRun_stall _ _

/-- C2 fails on the code: minimizeCashFlow has no iteration cap at all and
does not terminate on every input.  On the non-zero-sum caller-bug input
with balances 5 and 3 the working list reaches equal balances 4 and 4 after
two iterations; from there both reduces select the same row, the iteration
changes nothing and pushes a self-transfer, so the while loop runs forever
(none at every fuel) instead of stopping after at most N = 2 iterations with
an invariant-violation error. -/
theorem C2_no_iteration_cap :
    (∀ (fuel : ℕ) (acc : List Txn), mcfRun fuel [(0, 5), (1, 3)] acc = none) ∧
    minimizeCashFlow [(0, 5), (1, 3)] = none ∧
    mcfStep [(0, 4), (1, 4)] = ([(0, 4), (1, 4)], ⟨0, 0, 4⟩) := by
  have hrun : ∀ (fuel : ℕ) (acc : List Txn), mcfRun fuel [(0, 5), (1, 3)] acc = none := by
    intro fuel
    cases fuel with
    | zero => intro acc; rw [mcfRun]; norm_num
    | succ n =>
      intro acc
      rw [mcfRun]
      rw [if_neg (by norm_num)]
      show mcfRun n (mcfStep [(0, 5), (1, 3)]).1 (acc ++ [(mcfStep [(0, 5), (1, 3)]).2]) = none
      rw [mcfStep_53]
      exact mcfRun_26 _ _
  refine ⟨hrun, ?_, mcfStep_stall⟩
  have : minimizeCashFlow [(0, 5), (1, 3)] = mcfRun 2 [(0, 5), (1, 3)] [] := by
    norm_num [minimizeCashFlow, round2, List.filter]
  rw [this]
  exact hrun 2 []

/-- C8, Scenario 1 end to end with users A = 0, B = 1, C = 2: A pays 90
split EQUAL over [A, B, C]; calculateSplits yields shares 30, 30, 30;
calculateBalances yields net balances A +60, B -30, C -30; minimizeCashFlow
returns exactly the transfers B to A of 30 and C to A of 30, in that order. -/
theorem C8_scenario_one :
    calculateSplits 90 "EQUAL" [⟨0, 0, 0⟩, ⟨1, 0, 0⟩, ⟨2, 0, 0⟩] =
      .ok [⟨0, 30, none⟩, ⟨1, 30, none⟩, ⟨2, 30, none⟩] ∧
    calculateBalances [⟨0, 90, [⟨0, 30⟩, ⟨1, 30⟩, ⟨2, 30⟩]⟩] = [(0, 60), (1, -30), (2, -30)] ∧
    minimizeCashFlow [(0, 60), (1, -30), (2, -30)] = some [⟨1, 0, 30⟩, ⟨2, 0, 30⟩] := by
  refine ⟨?_, ?_, ?_⟩
  · norm_num [calculateSplits, round2, List.enum, List.enumFrom]
  · norm_num [calculateBalances, applyExpense, applySplit, mapHas, mapGet, mapSet, mapFind]
  · norm_num [minimizeCashFlow, mcfRun, mcfStep, maxCreditIdx, maxDebitIdx, amtAt, round2,
      List.range_succ, List.filter]

/-- A rational is a whole number of cents exactly when it is an integer
divided by 100. -/
lemma cents_iff (q : ℚ) : Cents q ↔ ∃ k : ℤ, q = (k : ℚ) / 100 := by
  constructor
  · intro h
    refine ⟨(q * 100).num, ?_⟩
    have h2 : ((q * 100).num : ℚ) = q * 100 := by
      rw [← Rat.den_eq_one_iff]
      exact h
    rw [h2]
    ring
  · rintro ⟨k, rfl⟩
    unfold Cents
    rw [div_mul_cancel₀ (h := by norm_num)]
    exact Rat.den_intCast k

/-- round2 always produces a whole number of cents. -/
lemma cents_round2 (q : ℚ) : Cents (round2 q) :=
  (cents_iff _).mpr ⟨⌊q * 100 + 1/2⌋, rfl⟩

/-- round2 is the identity on whole numbers of cents. -/
lemma round2_cents {q : ℚ} (h : Cents q) : round2 q = q := by
  obtain ⟨k, rfl⟩ := (cents_iff q).mp h
  rw [round2, div_mul_cancel₀ (h := by norm_num), add_comm]
  norm_num

/-- Closure of whole-cent values under addition. -/
lemma cents_add {a b : ℚ} (ha : Cents a) (hb : Cents b) : Cents (a + b) := by
  obtain ⟨j, rfl⟩ := (cents_iff a).mp ha
  obtain ⟨k, rfl⟩ := (cents_iff b).mp hb
  exact (cents_iff _).mpr ⟨j + k, by push_cast; ring⟩

/-- Closure of whole-cent values under subtraction. -/
lemma cents_sub {a b : ℚ} (ha : Cents a) (hb : Cents b) : Cents (a - b) := by
  obtain ⟨j, rfl⟩ := (cents_iff a).mp ha
  obtain ⟨k, rfl⟩ := (cents_iff b).mp hb
  exact (cents_iff _).mpr ⟨j - k, by push_cast; ring⟩

/-- Closure of whole-cent values under negation. -/
lemma cents_neg {a : ℚ} (ha : Cents a) : Cents (-a) := by
  obtain ⟨j, rfl⟩ := (cents_iff a).mp ha
  exact (cents_iff _).mpr ⟨-j, by push_cast; ring⟩

/-- Closure of whole-cent values under scaling by a natural number. -/
lemma cents_mul_nat {a : ℚ} (ha : Cents a) (n : ℕ) : Cents (a * (n : ℚ)) := by
  obtain ⟨j, rfl⟩ := (cents_iff a).mp ha
  exact (cents_iff _).mpr ⟨j * n, by push_cast; ring⟩

/-- Closure of whole-cent values under absolute value. -/
lemma cents_abs {a : ℚ} (ha : Cents a) : Cents |a| := by
  rcases abs_choice a with h | h
  · rwa [h]
  · rw [h]; exact cents_neg ha

/-- Closure of whole-cent values under binary minimum. -/
lemma cents_min {a b : ℚ} (ha : Cents a) (hb : Cents b) : Cents (min a b) := by
  rcases min_choice a b with h | h
  · rwa [h]
  · rwa [h]

/-- Zero is a whole number of cents. -/
lemma cents_zero : Cents 0 := (cents_iff _).mpr ⟨0, by norm_num⟩

/-- A nonzero whole number of cents has absolute value at least one cent. -/
lemma cents_one_le_abs {a : ℚ} (ha : Cents a) (hne : a ≠ 0) : 1/100 ≤ |a| := by
  obtain ⟨j, rfl⟩ := (cents_iff a).mp ha
  have hj : j ≠ 0 := by
    intro h
    apply hne
    rw [h]
    norm_num
  rw [abs_div, abs_of_pos (show (0:ℚ) < 100 by norm_num)]
  have h1 : (1:ℚ) ≤ |(j:ℚ)| := by
    have h2 : (1 : ℤ) ≤ |j| := Int.one_le_abs hj
    calc (1:ℚ) = ((1:ℤ):ℚ) := by norm_num
    _ ≤ ((|j|:ℤ):ℚ) := by exact_mod_cast h2
    _ = |(j:ℚ)| := by push_cast; ring
  linarith [h1]

/-- A whole number of cents strictly below one cent in absolute value is
zero. -/
lemma cents_eq_zero_of_abs_lt {a : ℚ} (ha : Cents a) (h : |a| < 1/100) : a = 0 := by
  by_contra hne
  exact absurd h (not_lt.mpr (cents_one_le_abs ha hne))

/-- C4 as stated fails on the code: for amount 0.035 split EQUAL between two
participants the code rounds (not truncates) 0.0175 to 0.02, so the first
share is not the truncation 0.01, and the two emitted shares 0.02 and 0.02
sum to 0.04, not to the amount 0.035. -/
theorem C4_counterexample :
    calculateSplits (7/200) "EQUAL" [⟨0, 0, 0⟩, ⟨1, 0, 0⟩] =
      .ok [⟨0, 2/100, none⟩, ⟨1, 2/100, none⟩] ∧
    truncate2 ((7/200) / 2) = 1/100 ∧
    (2/100 : ℚ) ≠ 1/100 ∧
    (2/100 : ℚ) + 2/100 ≠ 7/200 := by
  refine ⟨?_, by norm_num [truncate2], by norm_num, by norm_num⟩
  norm_num [calculateSplits, round2, List.enum, List.enumFrom]

/-- C4 amended: for every positive amount A and non-empty participant list,
the EQUAL policy returns one share per participant in the given order; each
of the first N-1 shares is A/N rounded (not truncated) to 2 decimal places,
the last participant receives A minus the sum of the other shares, itself
rounded to 2 decimal places, and whenever A is a whole number of cents that
rounding is the identity and the N shares sum to A exactly. -/
theorem C4_amended (A : ℚ) (hA : 0 < A) (ps : List SplitInput) (hps : ps ≠ []) :
    ∃ L, calculateSplits A "EQUAL" ps = .ok L ∧
      L.length = ps.length ∧
      L.map (fun s => s.userId) = ps.map (fun p => p.userId) ∧
      (∀ i, i + 1 < ps.length → ∀ h : i < L.length,
        (L.get ⟨i, h⟩).amount = round2 (A / (ps.length : ℚ))) ∧
      (∀ h : ps.length - 1 < L.length, (L.get ⟨ps.length - 1, h⟩).amount =
        round2 (A - round2 (A / (ps.length : ℚ)) * ((ps.length - 1 : ℕ) : ℚ))) ∧
      (Cents A → (L.map (fun s => s.amount)).sum = A) := by
  rw [calculateSplits, if_pos rfl]
  refine ⟨_, rfl, ?_, ?_, ?_, ?_, ?_⟩
  · simp [List.enum_length]
  · rw [List.map_map]
    have hcomp : ((fun s : Split => s.userId) ∘ (fun p : ℕ × SplitInput =>
        if p.1 = ps.length - 1 then
          (⟨p.2.userId, round2 (A - round2 (A / (ps.length : ℚ)) *
            ((ps.length - 1 : ℕ) : ℚ)), none⟩ : Split)
        else ⟨p.2.userId, round2 (A / (ps.length : ℚ)), none⟩)) =
        (fun p : SplitInput => p.userId) ∘ Prod.snd := by
      funext p
      by_cases h : p.1 = ps.length - 1 <;> simp [h, Function.comp]
    rw [hcomp, ← List.map_map, List.enum_map_snd]
  · intro i hi h
    have hlt : i < ps.enum.length := by
      rw [List.enum_length]; omega
    rw [List.get_eq_getElem, List.getElem_map, List.getElem_enum]
    have hib : i < ps.length := by omega
    have hne : ¬ ((i, ps[i]).1 = ps.length - 1) := by
      simp only []
      omega
    rw [if_neg hne]
  · intro h
    have hN : 0 < ps.length := List.length_pos.mpr hps
    rw [List.get_eq_getElem, List.getElem_map, List.getElem_enum]
    have hb2 : ps.length - 1 < ps.length := by omega
    have heq : ((ps.length - 1, ps[ps.length - 1]).1 = ps.length - 1) := rfl
    rw [if_pos heq]
  · intro hA100
    have hN : 0 < ps.length := List.length_pos.mpr hps
    rw [List.map_map]
    have hmap : ((fun s : Split => s.amount) ∘ (fun p : ℕ × SplitInput =>
        if p.1 = ps.length - 1 then
          (⟨p.2.userId, round2 (A - round2 (A / (ps.length : ℚ)) *
            ((ps.length - 1 : ℕ) : ℚ)), none⟩ : Split)
        else ⟨p.2.userId, round2 (A / (ps.length : ℚ)), none⟩)) =
        (fun i : ℕ =>
          if i = ps.length - 1 then
            round2 (A - round2 (A / (ps.length : ℚ)) * ((ps.length - 1 : ℕ) : ℚ))
          else round2 (A / (ps.length : ℚ))) ∘ Prod.fst := by
      funext p
      by_cases h : p.1 = ps.length - 1 <;> simp [h, Function.comp]
    rw [hmap, ← List.map_map, List.enum_map_fst]
    set s := round2 (A / (ps.length : ℚ)) with hs
    have hcs : Cents s := cents_round2 _
    have hlast : Cents (A - s * ((ps.length - 1 : ℕ) : ℚ)) :=
      cents_sub hA100 (cents_mul_nat hcs _)
    obtain ⟨n, hn⟩ : ∃ n, ps.length = n + 1 := ⟨ps.length - 1, by omega⟩
    rw [hn] at hlast ⊢
    have hself : n + 1 - 1 = n := by omega
    rw [hself] at hlast ⊢
    rw [List.range_succ, List.map_append, List.sum_append]
    have hrest : ((List.range n).map (fun i : ℕ =>
        if i = n then round2 (A - s * (n : ℚ)) else s)).sum = (n : ℚ) * s := by
      have hconst : (List.range n).map (fun i : ℕ =>
          if i = n then round2 (A - s * (n : ℚ)) else s) = (List.range n).map (fun _ => s) := by
        apply List.map_congr_left
        intro i hi
        rw [List.mem_range] at hi
        rw [if_neg (by omega)]
      rw [hconst, List.map_const']
      rw [List.sum_replicate, List.length_range]
      simp [nsmul_eq_mul]
    rw [hrest]
    simp only [List.map_cons, List.map_nil, List.sum_cons, List.sum_nil, if_true]
    rw [round2_cents hlast]
    ring

/-- C4 witness: amount 10 split EQUAL among three participants. -/
theorem C4_amended_witness :
    (0:ℚ) < 10 ∧ ([⟨1, 0, 0⟩, ⟨2, 0, 0⟩, ⟨3, 0, 0⟩] : List SplitInput) ≠ [] ∧
    (∃ L, calculateSplits 10 "EQUAL" [⟨1, 0, 0⟩, ⟨2, 0, 0⟩, ⟨3, 0, 0⟩] = .ok L ∧
      L.length = 3 ∧
      L.map (fun s => s.userId) = [1, 2, 3] ∧
      (∀ i, i + 1 < 3 → ∀ h : i < L.length, (L.get ⟨i, h⟩).amount = round2 (10 / 3)) ∧
      (∀ h : 2 < L.length, (L.get ⟨2, h⟩).amount =
        round2 (10 - round2 (10 / 3) * 2)) ∧
      (Cents 10 → (L.map (fun s => s.amount)).sum = 10)) := by
  refine ⟨by norm_num, by simp, ?_⟩
  have h := C4_amended 10 (by norm_num) [⟨1, 0, 0⟩, ⟨2, 0, 0⟩, ⟨3, 0, 0⟩] (by simp)
  obtain ⟨L, h1, h2, h3, h4, h5, h6⟩ := h
  exact ⟨L, h1, by simpa using h2, by simpa using h3, by simpa using h4,
    by simpa using h5, h6⟩

/-- Setting a key changes the value sum by the new value minus the value
previously attached to that key. -/
lemma sumAmts_mapSet (m : List (ℕ × ℚ)) (k : ℕ) (v : ℚ) :
    sumAmts (mapSet m k v) = sumAmts m + v - mapGet m k := by
  induction m with
  | nil => simp [mapSet, sumAmts, mapGet, mapFind]
  | cons p t ih =>
    obtain ⟨a, b⟩ := p
    by_cases h : a = k
    · subst h
      simp [mapSet, sumAmts, mapGet, mapFind]
      ring
    · simp only [mapSet, if_neg h]
      simp only [sumAmts, List.map_cons, List.sum_cons] at ih ⊢
      have hget : mapGet ((a, b) :: t) k = mapGet t k := by
        simp [mapGet, mapFind, h]
      rw [hget, ih]
      ring

/-- Reading back the key just set returns the value just written. -/
lemma mapGet_mapSet_self (m : List (ℕ × ℚ)) (k : ℕ) (v : ℚ) :
    mapGet (mapSet m k v) k = v := by
  induction m with
  | nil => simp [mapSet, mapGet, mapFind]
  | cons p t ih =>
    obtain ⟨a, b⟩ := p
    by_cases h : a = k
    · subst h
      simp [mapSet, mapGet, mapFind]
    · simp only [mapSet, if_neg h]
      show (mapFind ((a, b) :: mapSet t k v) k).getD 0 = v
      simp only [mapFind, if_neg h]
      exact ih

/-- An absent key reads as the 0 default. -/
lemma mapGet_not_has {m : List (ℕ × ℚ)} {k : ℕ} (h : ¬ mapHas m k) : mapGet m k = 0 := by
  unfold mapHas at h
  unfold mapGet
  cases hf : mapFind m k with
  | none => simp
  | some v => rw [hf] at h; simp at h

/-- The ensure-key-then-read idiom of calculateBalances reads the old value
(0 for a fresh key) and leaves the value sum unchanged. -/
lemma ensure_sum_get (m : List (ℕ × ℚ)) (k : ℕ) :
    sumAmts (if mapHas m k then m else mapSet m k 0) = sumAmts m ∧
    mapGet (if mapHas m k then m else mapSet m k 0) k = mapGet m k := by
  by_cases h : mapHas m k
  · rw [if_pos h]; exact ⟨rfl, rfl⟩
  · rw [if_neg h]
    constructor
    · rw [sumAmts_mapSet, mapGet_not_has h]
      ring
    · rw [mapGet_mapSet_self, mapGet_not_has h]

/-- Applying one split decreases the value sum by exactly the split amount. -/
lemma sumAmts_applySplit (m : List (ℕ × ℚ)) (s : BalSplit) :
    sumAmts (applySplit m s) = sumAmts m - s.amount := by
  rw [applySplit]
  obtain ⟨h1, h2⟩ := ensure_sum_get m s.userId
  rw [sumAmts_mapSet, h1, h2]
  ring

/-- Applying one expense changes the value sum by the expense amount minus
the sum of its split amounts. -/
lemma sumAmts_applyExpense (m : List (ℕ × ℚ)) (e : BalExpense) :
    sumAmts (applyExpense m e) =
      sumAmts m + e.amount - (e.splits.map (fun s => s.amount)).sum := by
  rw [applyExpense]
  have hsplits : ∀ (sp : List BalSplit) (m0 : List (ℕ × ℚ)),
      sumAmts (sp.foldl applySplit m0) = sumAmts m0 - (sp.map (fun s => s.amount)).sum := by
    intro sp
    induction sp with
    | nil => intro m0; simp
    | cons s t ih =>
      intro m0
      simp only [List.foldl_cons, List.map_cons, List.sum_cons]
      rw [ih, sumAmts_applySplit]
      ring
  rw [hsplits]
  obtain ⟨h1, h2⟩ := ensure_sum_get m e.paidById
  rw [sumAmts_mapSet, h1, h2]
  ring

/-- C5: for every list of expenses in which each expense's split amounts sum
exactly to the expense's amount, the per-user net balances produced by
calculateBalances (payer credited the full amount, every split participant
debited their share) sum to zero across all users of the resulting map. -/
theorem C5_balances_sum_zero (expenses : List BalExpense)
    (h : ∀ e ∈ expenses, (e.splits.map (fun s => s.amount)).sum = e.amount) :
    sumAmts (calculateBalances expenses) = 0 := by
  rw [calculateBalances]
  have hgen : ∀ (es : List BalExpense) (m0 : List (ℕ × ℚ)),
      (∀ e ∈ es, (e.splits.map (fun s => s.amount)).sum = e.amount) →
      sumAmts (es.foldl applyExpense m0) = sumAmts m0 := by
    intro es
    induction es with
    | nil => intro m0 _; rfl
    | cons e t ih =>
      intro m0 hall
      simp only [List.foldl_cons]
      rw [ih _ (fun x hx => hall x (List.mem_cons_of_mem e hx))]
      rw [sumAmts_applyExpense, hall e (List.mem_cons_self e t)]
      ring
  rw [hgen expenses [] h]
  rfl

/-- C5 witness: the Scenario 1 expense, whose splits 30 + 30 + 30 sum to the
amount 90. -/
theorem C5_witness :
    (∀ e ∈ [(⟨0, 90, [⟨0, 30⟩, ⟨1, 30⟩, ⟨2, 30⟩]⟩ : BalExpense)],
      (e.splits.map (fun s => s.amount)).sum = e.amount) ∧
    sumAmts (calculateBalances [⟨0, 90, [⟨0, 30⟩, ⟨1, 30⟩, ⟨2, 30⟩]⟩]) = 0 := by
  have hh : ∀ e ∈ [(⟨0, 90, [⟨0, 30⟩, ⟨1, 30⟩, ⟨2, 30⟩]⟩ : BalExpense)],
      (e.splits.map (fun s => s.amount)).sum = e.amount := by
    intro e he
    simp only [List.mem_singleton] at he
    subst he
    norm_num
  exact ⟨hh, C5_balances_sum_zero _ hh⟩

/-- Value-sum accounting for in-place array writes. -/
lemma sumAmts_set : ∀ (l : List (ℕ × ℚ)) (i : ℕ) (b : ℕ × ℚ), i < l.length →
    ∀ h : i < l.length, sumAmts (l.set i b) = sumAmts l - (l.get ⟨i, h⟩).2 + b.2
  | [], i, b, h, _ => absurd h (by simp)
  | p :: t, 0, b, _, _ => by simp [sumAmts]; try ring
  | p :: t, i + 1, b, h, h2 => by
    have ht : i < t.length := by simpa using h
    simp only [List.set_cons_succ, sumAmts, List.map_cons, List.sum_cons]
    have := sumAmts_set t i b ht ht
    simp only [sumAmts] at this
    rw [this]
    simp only [List.get_cons_succ]
    ring

/-- Value-sum accounting for splices. -/
lemma sumAmts_eraseIdx : ∀ (l : List (ℕ × ℚ)) (i : ℕ), i < l.length →
    ∀ h : i < l.length, sumAmts (l.eraseIdx i) = sumAmts l - (l.get ⟨i, h⟩).2
  | [], i, h, _ => absurd h (by simp)
  | p :: t, 0, _, _ => by simp [sumAmts]; try ring
  | p :: t, i + 1, h, h2 => by
    have ht : i < t.length := by simpa using h
    simp only [List.eraseIdx_cons_succ, sumAmts, List.map_cons, List.sum_cons]
    have := sumAmts_eraseIdx t i ht ht
    simp only [sumAmts] at this
    rw [this]
    simp only [List.get_cons_succ]
    ring

/-- Per-user accounting for in-place array writes. -/
lemma amtOf_set : ∀ (l : List (ℕ × ℚ)) (i : ℕ) (b : ℕ × ℚ), i < l.length →
    ∀ (h : i < l.length) (u : ℕ),
      amtOf (l.set i b) u = amtOf l u - (if (l.get ⟨i, h⟩).1 = u then (l.get ⟨i, h⟩).2 else 0)
        + (if b.1 = u then b.2 else 0)
  | [], i, b, h, _, _ => absurd h (by simp)
  | p :: t, 0, b, _, _, u => by simp [amtOf]; try ring
  | p :: t, i + 1, b, h, h2, u => by
    have ht : i < t.length := by simpa using h
    simp only [List.set_cons_succ, amtOf, List.map_cons, List.sum_cons]
    have := amtOf_set t i b ht ht u
    simp only [amtOf] at this
    rw [this]
    simp only [List.get_cons_succ]
    ring

/-- Per-user accounting for splices. -/
lemma amtOf_eraseIdx : ∀ (l : List (ℕ × ℚ)) (i : ℕ), i < l.length →
    ∀ (h : i < l.length) (u : ℕ),
      amtOf (l.eraseIdx i) u = amtOf l u - (if (l.get ⟨i, h⟩).1 = u then (l.get ⟨i, h⟩).2 else 0)
  | [], i, h, _, _ => absurd h (by simp)
  | p :: t, 0, _, _, u => by simp [amtOf]; try ring
  | p :: t, i + 1, h, h2, u => by
    have ht : i < t.length := by simpa using h
    simp only [List.eraseIdx_cons_succ, amtOf, List.map_cons, List.sum_cons]
    have := amtOf_eraseIdx t i ht ht u
    simp only [amtOf] at this
    rw [this]
    simp only [List.get_cons_succ]
    ring

/-- Keys of an in-place write with an unchanged key. -/
lemma keys_set (l : List (ℕ × ℚ)) (i : ℕ) (b : ℕ × ℚ) :
    keys (l.set i b) = (keys l).set i b.1 := by
  unfold keys
  exact List.map_set

/-- Keys of a splice. -/
lemma keys_eraseIdx : ∀ (l : List (ℕ × ℚ)) (i : ℕ),
    keys (l.eraseIdx i) = (keys l).eraseIdx i
  | [], _ => by simp [keys]
  | p :: t, 0 => by simp [keys]
  | p :: t, i + 1 => by
    simp only [List.eraseIdx_cons_succ, keys, List.map_cons]
    rw [show List.map Prod.fst (t.eraseIdx i) = keys (t.eraseIdx i) from rfl,
      keys_eraseIdx t i]
    rfl

/-- In a list with distinct elements, the element at a spliced index is gone. -/
lemma nodup_not_mem_eraseIdx : ∀ (l : List ℕ), l.Nodup → ∀ (i : ℕ) (h : i < l.length),
    l.get ⟨i, h⟩ ∉ l.eraseIdx i
  | [], _, i, h => absurd h (by simp)
  | a :: t, hnd, 0, _ => by
    simp only [List.eraseIdx_cons_zero, List.get]
    exact (List.nodup_cons.mp hnd).1
  | a :: t, hnd, i + 1, h => by
    have ht : i < t.length := by simpa using h
    simp only [List.eraseIdx_cons_succ, List.get_cons_succ, List.mem_cons]
    push_neg
    constructor
    · intro heq
      exact absurd (heq ▸ t.get_mem i ht) (List.nodup_cons.mp hnd).1
    · exact nodup_not_mem_eraseIdx t (List.nodup_cons.mp hnd).2 i ht

/-- With distinct keys, the amount attached to the key of a member entry is
that entry's amount. -/
lemma amtOf_of_mem_nodup : ∀ (l : List (ℕ × ℚ)), (keys l).Nodup → ∀ p ∈ l, amtOf l p.1 = p.2
  | [], _, p, hp => absurd hp (by simp)
  | q :: t, hnd, p, hp => by
    have hnd2 : q.1 ∉ keys t ∧ (keys t).Nodup := by
      have hk : keys (q :: t) = q.1 :: keys t := rfl
      rw [hk] at hnd
      exact List.nodup_cons.mp hnd
    rcases List.mem_cons.mp hp with h | h
    · subst h
      show amtOf (p :: t) p.1 = p.2
      simp only [amtOf, List.map_cons, List.sum_cons, if_pos rfl, if_true]
      have hzero : (t.map (fun r => if r.1 = p.1 then r.2 else 0)).sum = 0 := by
        apply List.sum_eq_zero
        intro x hx
        obtain ⟨r, hr, rfl⟩ := List.mem_map.mp hx
        rw [if_neg]
        intro hkey
        exact hnd2.1 (hkey ▸ List.mem_map_of_mem Prod.fst hr)
      rw [hzero, add_zero]
    · have hne : q.1 ≠ p.1 := by
        intro hkey
        exact hnd2.1 (hkey ▸ List.mem_map_of_mem Prod.fst h)
      show amtOf (q :: t) p.1 = p.2
      simp only [amtOf, List.map_cons, List.sum_cons, if_neg hne]
      have ih := amtOf_of_mem_nodup t hnd2.2 p h
      simp only [amtOf] at ih
      rw [ih, zero_add]

/-- The amount attached to an absent key is 0. -/
lemma amtOf_not_mem {l : List (ℕ × ℚ)} {u : ℕ} (h : u ∉ keys l) : amtOf l u = 0 := by
  unfold amtOf
  apply List.sum_eq_zero
  intro x hx
  simp only [List.mem_map] at hx
  obtain ⟨r, hr, rfl⟩ := hx
  rw [if_neg]
  intro hkey
  exact h (hkey ▸ List.mem_map_of_mem Prod.fst hr)

/-- A list of nonpositive rationals has nonpositive sum. -/
lemma sum_nonpos_of_all_nonpos : ∀ (l : List ℚ), (∀ x ∈ l, x ≤ 0) → l.sum ≤ 0
  | [], _ => by simp
  | x :: t, hall => by
    simp only [List.sum_cons]
    have ht := sum_nonpos_of_all_nonpos t (fun z hz => hall z (List.mem_cons_of_mem x hz))
    have hx := hall x (List.mem_cons_self x t)
    linarith

/-- A non-empty list of strictly negative rationals has a strictly negative
sum. -/
lemma sum_neg_of_all_neg (l : List ℚ) (hne : l ≠ []) (hall : ∀ x ∈ l, x < 0) : l.sum < 0 := by
  cases l with
  | nil => exact absurd rfl hne
  | cons x t =>
    simp only [List.sum_cons]
    have hx := hall x (List.mem_cons_self x t)
    have ht := sum_nonpos_of_all_nonpos t
      (fun z hz => le_of_lt (hall z (List.mem_cons_of_mem x hz)))
    linarith

/-- The maximum-credit reduce lands inside the list (or at its start value)
and dominates the start value and every scanned index. -/
lemma foldl_credit_spec (s : List (ℕ × ℚ)) :
    ∀ (idxs : List ℕ) (m0 : ℕ),
      (idxs.foldl (fun m i => if amtAt s i > amtAt s m then i else m) m0 = m0 ∨
        idxs.foldl (fun m i => if amtAt s i > amtAt s m then i else m) m0 ∈ idxs) ∧
      amtAt s m0 ≤ amtAt s (idxs.foldl (fun m i => if amtAt s i > amtAt s m then i else m) m0) ∧
      ∀ j ∈ idxs,
        amtAt s j ≤ amtAt s (idxs.foldl (fun m i => if amtAt s i > amtAt s m then i else m) m0)
  | [], m0 => by simp
  | i :: rest, m0 => by
    simp only [List.foldl_cons]
    set m1 := if amtAt s i > amtAt s m0 then i else m0 with hm1
    obtain ⟨hmem, hdom, hall⟩ := foldl_credit_spec s rest m1
    have hm0le : amtAt s m0 ≤ amtAt s m1 := by
      rw [hm1]
      by_cases h : amtAt s i > amtAt s m0
      · rw [if_pos h]; exact le_of_lt h
      · rw [if_neg h]
    have hile : amtAt s i ≤ amtAt s m1 := by
      rw [hm1]
      by_cases h : amtAt s i > amtAt s m0
      · rw [if_pos h]
      · rw [if_neg h]; exact le_of_not_lt h
    refine ⟨?_, le_trans hm0le hdom, ?_⟩
    · rcases hmem with h | h
      · rw [h, hm1]
        by_cases hc : amtAt s i > amtAt s m0
        · rw [if_pos hc]; exact Or.inr (by simp)
        · rw [if_neg hc]; exact Or.inl rfl
      · exact Or.inr (List.mem_cons_of_mem i h)
    · intro j hj
      rcases List.mem_cons.mp hj with h | h
      · exact h ▸ le_trans hile hdom
      · exact hall j h

/-- The maximum-debit reduce lands inside the list (or at its start value)
and is dominated by the start value and every scanned index. -/
lemma foldl_debit_spec (s : List (ℕ × ℚ)) :
    ∀ (idxs : List ℕ) (m0 : ℕ),
      (idxs.foldl (fun m i => if amtAt s i < amtAt s m then i else m) m0 = m0 ∨
        idxs.foldl (fun m i => if amtAt s i < amtAt s m then i else m) m0 ∈ idxs) ∧
      amtAt s (idxs.foldl (fun m i => if amtAt s i < amtAt s m then i else m) m0) ≤ amtAt s m0 ∧
      ∀ j ∈ idxs,
        amtAt s (idxs.foldl (fun m i => if amtAt s i < amtAt s m then i else m) m0) ≤ amtAt s j
  | [], m0 => by simp
  | i :: rest, m0 => by
    simp only [List.foldl_cons]
    set m1 := if amtAt s i < amtAt s m0 then i else m0 with hm1
    obtain ⟨hmem, hdom, hall⟩ := foldl_debit_spec s rest m1
    have hm0le : amtAt s m1 ≤ amtAt s m0 := by
      rw [hm1]
      by_cases h : amtAt s i < amtAt s m0
      · rw [if_pos h]; exact le_of_lt h
      · rw [if_neg h]
    have hile : amtAt s m1 ≤ amtAt s i := by
      rw [hm1]
      by_cases h : amtAt s i < amtAt s m0
      · rw [if_pos h]
      · rw [if_neg h]; exact le_of_not_lt h
    refine ⟨?_, le_trans hdom hm0le, ?_⟩
    · rcases hmem with h | h
      · rw [h, hm1]
        by_cases hc : amtAt s i < amtAt s m0
        · rw [if_pos hc]; exact Or.inr (by simp)
        · rw [if_neg hc]; exact Or.inl rfl
      · exact Or.inr (List.mem_cons_of_mem i h)
    · intro j hj
      rcases List.mem_cons.mp hj with h | h
      · exact h ▸ le_trans hdom hile
      · exact hall j h

/-- The selected credit index is in range and carries a maximal amount. -/
lemma maxCreditIdx_spec (s : List (ℕ × ℚ)) (h0 : 0 < s.length) :
    maxCreditIdx s < s.length ∧ ∀ j < s.length, amtAt s j ≤ amtAt s (maxCreditIdx s) := by
  obtain ⟨hmem, _, hall⟩ := foldl_credit_spec s (List.range s.length) 0
  rw [maxCreditIdx]
  constructor
  · rcases hmem with h | h
    · rw [h]; exact h0
    · exact List.mem_range.mp h
  · intro j hj
    exact hall j (List.mem_range.mpr hj)

/-- The selected debit index is in range and carries a minimal amount. -/
lemma maxDebitIdx_spec (s : List (ℕ × ℚ)) (h0 : 0 < s.length) :
    maxDebitIdx s < s.length ∧ ∀ j < s.length, amtAt s (maxDebitIdx s) ≤ amtAt s j := by
  obtain ⟨hmem, _, hall⟩ := foldl_debit_spec s (List.range s.length) 0
  rw [maxDebitIdx]
  constructor
  · rcases hmem with h | h
    · rw [h]; exact h0
    · exact List.mem_range.mp h
  · intro j hj
    exact hall j (List.mem_range.mpr hj)

/-- Reading a working-list amount at an in-range index. -/
lemma amtAt_get (s : List (ℕ × ℚ)) (i : ℕ) (h : i < s.length) :
    amtAt s i = (s.get ⟨i, h⟩).2 := by
  rw [amtAt, List.getD_eq_getElem _ _ h]
  rfl

/-- A list of nonnegative rationals has nonnegative sum. -/
lemma sum_nonneg_of_all_nonneg : ∀ (l : List ℚ), (∀ x ∈ l, 0 ≤ x) → 0 ≤ l.sum
  | [], _ => by simp
  | x :: t, hall => by
    simp only [List.sum_cons]
    have ht := sum_nonneg_of_all_nonneg t (fun z hz => hall z (List.mem_cons_of_mem x hz))
    have hx := hall x (List.mem_cons_self x t)
    linarith

/-- A non-empty list of strictly positive rationals has strictly positive
sum. -/
lemma sum_pos_of_all_pos (l : List ℚ) (hne : l ≠ []) (hall : ∀ x ∈ l, 0 < x) : 0 < l.sum := by
  cases l with
  | nil => exact absurd rfl hne
  | cons x t =>
    simp only [List.sum_cons]
    have hx := hall x (List.mem_cons_self x t)
    have ht := sum_nonneg_of_all_nonneg t
      (fun z hz => le_of_lt (hall z (List.mem_cons_of_mem x hz)))
    linarith

/-- On a zero-sum working list of nonzero balances with at least two rows
the two reduces pick valid distinct indices: a strictly positive maximal
credit and a strictly negative minimal debit. -/
lemma mcf_select (s : List (ℕ × ℚ))
    (hgz : ∀ p ∈ s, p.2 ≠ 0) (hsum : sumAmts s = 0) (hlen : 2 ≤ s.length) :
    maxCreditIdx s < s.length ∧ maxDebitIdx s < s.length ∧
    0 < amtAt s (maxCreditIdx s) ∧ amtAt s (maxDebitIdx s) < 0 ∧
    maxCreditIdx s ≠ maxDebitIdx s := by
  have h0 : 0 < s.length := by omega
  obtain ⟨hci, hcmax⟩ := maxCreditIdx_spec s h0
  obtain ⟨hdi, hdmin⟩ := maxDebitIdx_spec s h0
  have hne : s ≠ [] := by
    intro h
    rw [h] at h0
    simp at h0
  have hpos : ∃ j, ∃ hj : j < s.length, 0 < amtAt s j := by
    by_contra hcon
    push_neg at hcon
    have hall : ∀ x ∈ s.map Prod.snd, x < 0 := by
      intro x hx
      obtain ⟨p, hp, rfl⟩ := List.mem_map.mp hx
      obtain ⟨⟨j, hj⟩, rfl⟩ := List.mem_iff_get.mp hp
      have h1 := hcon j hj
      rw [amtAt_get s j hj] at h1
      have h2 := hgz _ (s.get_mem j hj)
      exact lt_of_le_of_ne h1 h2
    have := sum_neg_of_all_neg (s.map Prod.snd) (by simpa using hne) hall
    rw [sumAmts] at hsum
    linarith
  have hneg : ∃ j, ∃ hj : j < s.length, amtAt s j < 0 := by
    by_contra hcon
    push_neg at hcon
    have hall : ∀ x ∈ s.map Prod.snd, 0 < x := by
      intro x hx
      obtain ⟨p, hp, rfl⟩ := List.mem_map.mp hx
      obtain ⟨⟨j, hj⟩, rfl⟩ := List.mem_iff_get.mp hp
      have h1 := hcon j hj
      rw [amtAt_get s j hj] at h1
      have h2 := hgz _ (s.get_mem j hj)
      exact lt_of_le_of_ne h1 (Ne.symm h2)
    have := sum_pos_of_all_pos (s.map Prod.snd) (by simpa using hne) hall
    rw [sumAmts] at hsum
    linarith
  obtain ⟨jp, hjp, hjpos⟩ := hpos
  obtain ⟨jn, hjn, hjneg⟩ := hneg
  have hcpos : 0 < amtAt s (maxCreditIdx s) := lt_of_lt_of_le hjpos (hcmax jp hjp)
  have hdneg : amtAt s (maxDebitIdx s) < 0 := lt_of_le_of_lt (hdmin jn hjn) hjneg
  refine ⟨hci, hdi, hcpos, hdneg, ?_⟩
  intro h
  rw [h] at hcpos
  linarith

/-- mcfStep with all array reads resolved, for distinct in-range selected
indices. -/
lemma mcfStep_resolve (s : List (ℕ × ℚ))
    (hci : maxCreditIdx s < s.length) (hdi : maxDebitIdx s < s.length)
    (hne : maxCreditIdx s ≠ maxDebitIdx s) :
    mcfStep s =
      (let c := s.get ⟨maxCreditIdx s, hci⟩
       let d := s.get ⟨maxDebitIdx s, hdi⟩
       let m := min |c.2| |d.2|
       let s2 := (s.set (maxCreditIdx s) (c.1, c.2 - m)).set (maxDebitIdx s) (d.1, d.2 + m)
       let s3 := if |c.2 - m| < 1/100 then s2.eraseIdx (maxCreditIdx s) else s2
       if |d.2 + m| < 1/100 then
         (s3.eraseIdx (if maxDebitIdx s > maxCreditIdx s ∧ |c.2 - m| < 1/100
            then maxDebitIdx s - 1 else maxDebitIdx s), ⟨d.1, c.1, round2 m⟩)
       else (s3, ⟨d.1, c.1, round2 m⟩)) := by
  have hc : s.getD (maxCreditIdx s) (0, 0) = s.get ⟨maxCreditIdx s, hci⟩ := by
    rw [List.getD_eq_getElem _ _ hci]
    rfl
  have hd : s.getD (maxDebitIdx s) (0, 0) = s.get ⟨maxDebitIdx s, hdi⟩ := by
    rw [List.getD_eq_getElem _ _ hdi]
    rfl
  have hlen1 : maxDebitIdx s <
      (s.set (maxCreditIdx s) ((s.get ⟨maxCreditIdx s, hci⟩).1,
        (s.get ⟨maxCreditIdx s, hci⟩).2 - min |(s.get ⟨maxCreditIdx s, hci⟩).2|
          |(s.get ⟨maxDebitIdx s, hdi⟩).2|)).length := by
    rw [List.length_set]
    exact hdi
  have hs1d : (s.set (maxCreditIdx s) ((s.get ⟨maxCreditIdx s, hci⟩).1,
      (s.get ⟨maxCreditIdx s, hci⟩).2 - min |(s.get ⟨maxCreditIdx s, hci⟩).2|
        |(s.get ⟨maxDebitIdx s, hdi⟩).2|)).getD (maxDebitIdx s) (0, 0) =
      s.get ⟨maxDebitIdx s, hdi⟩ := by
    rw [List.getD_eq_getElem _ _ hlen1, List.getElem_set_ne hne]
    rfl
  simp only [mcfStep, hc, hd, hs1d]
  have hs2c : ∀ (nc nd : ℕ × ℚ),
      ((s.set (maxCreditIdx s) nc).set (maxDebitIdx s) nd).getD (maxCreditIdx s) (0, 0) = nc := by
    intro nc nd
    have hl : maxCreditIdx s < ((s.set (maxCreditIdx s) nc).set (maxDebitIdx s) nd).length := by
      rw [List.length_set, List.length_set]
      exact hci
    rw [List.getD_eq_getElem _ _ hl, List.getElem_set_ne (Ne.symm hne), List.getElem_set_self]
  have hs2d : ∀ (nc nd : ℕ × ℚ),
      ((s.set (maxCreditIdx s) nc).set (maxDebitIdx s) nd).getD (maxDebitIdx s) (0, 0) = nd := by
    intro nc nd
    have hl : maxDebitIdx s < ((s.set (maxCreditIdx s) nc).set (maxDebitIdx s) nd).length := by
      rw [List.length_set, List.length_set]
      exact hdi
    rw [List.getD_eq_getElem _ _ hl, List.getElem_set_self]
  simp only [hs2c, hs2d]

/-- Writing back the element already stored at an index is a no-op. -/
lemma list_set_get_self {α : Type} : ∀ (l : List α) (i : ℕ) (h : i < l.length),
    l.set i (l.get ⟨i, h⟩) = l
  | [], i, h => absurd h (by simp)
  | x :: t, 0, _ => rfl
  | x :: t, i + 1, h => by
    simp only [List.set_cons_succ, List.get_cons_succ]
    rw [list_set_get_self t i (by simpa using h)]

/-- Every member of a splice result sits at some original index other than
the spliced one. -/
lemma mem_eraseIdx_imp {α : Type} : ∀ (l : List α) (i : ℕ), i < l.length →
    ∀ a ∈ l.eraseIdx i, ∃ j, ∃ hj : j < l.length, j ≠ i ∧ l.get ⟨j, hj⟩ = a
  | [], i, h, _, _ => absurd h (by simp)
  | x :: t, 0, _, a, ha => by
    rw [List.eraseIdx_cons_zero] at ha
    obtain ⟨⟨j, hj⟩, rfl⟩ := List.mem_iff_get.mp ha
    exact ⟨j + 1, by simpa using hj, by omega, rfl⟩
  | x :: t, i + 1, h, a, ha => by
    rw [List.eraseIdx_cons_succ] at ha
    rcases List.mem_cons.mp ha with h1 | h1
    · exact ⟨0, by simp, by omega, h1.symm⟩
    · obtain ⟨j, hj, hne, hget⟩ := mem_eraseIdx_imp t i (by simpa using h) a h1
      exact ⟨j + 1, by simpa using hj, by omega, hget⟩

/-- Reading any position of the doubly written working list. -/
lemma set2_get (s : List (ℕ × ℚ)) (i j : ℕ) (vi vj : ℕ × ℚ) (k : ℕ) (hk : k < s.length) :
    ((s.set i vi).set j vj).get ⟨k, by simpa using hk⟩ =
      if j = k then vj else if i = k then vi else s.get ⟨k, hk⟩ := by
  by_cases h1 : j = k
  · subst h1
    rw [if_pos rfl, List.get_eq_getElem, List.getElem_set_self]
  · rw [if_neg h1, List.get_eq_getElem, List.getElem_set_ne h1]
    by_cases h2 : i = k
    · subst h2
      rw [if_pos rfl, List.getElem_set_self]
    · rw [if_neg h2, List.getElem_set_ne h2]
      rfl

/-- The double write with unchanged keys leaves the key list unchanged. -/
lemma keys_set2 (s : List (ℕ × ℚ)) (i j : ℕ) (hi : i < s.length) (hj : j < s.length)
    (vi vj : ℚ) :
    keys ((s.set i ((s.get ⟨i, hi⟩).1, vi)).set j ((s.get ⟨j, hj⟩).1, vj)) = keys s := by
  rw [keys_set, keys_set]
  have hki : i < (keys s).length := by rw [keys, List.length_map]; exact hi
  have hkj : j < (keys s).length := by rw [keys, List.length_map]; exact hj
  have h1 : (s.get ⟨i, hi⟩).1 = (keys s).get ⟨i, hki⟩ := by
    simp [keys]
  have h2 : (s.get ⟨j, hj⟩).1 = (keys s).get ⟨j, hkj⟩ := by
    simp [keys]
  rw [h1, list_set_get_self, h2, list_set_get_self]

/-- Value-sum of the double write. -/
lemma sumAmts_set2 (s : List (ℕ × ℚ)) (i j : ℕ) (hij : i ≠ j)
    (hi : i < s.length) (hj : j < s.length) (vi vj : ℕ × ℚ) :
    sumAmts ((s.set i vi).set j vj) =
      sumAmts s - (s.get ⟨i, hi⟩).2 - (s.get ⟨j, hj⟩).2 + vi.2 + vj.2 := by
  have hj1 : j < (s.set i vi).length := by rw [List.length_set]; exact hj
  rw [sumAmts_set _ _ _ hj1 hj1, sumAmts_set _ _ _ hi hi]
  have hget : (s.set i vi).get ⟨j, hj1⟩ = s.get ⟨j, hj⟩ := by
    rw [List.get_eq_getElem, List.getElem_set_ne hij]
    rfl
  rw [hget]
  ring

/-- Per-user amount of the double write. -/
lemma amtOf_set2 (s : List (ℕ × ℚ)) (i j : ℕ) (hij : i ≠ j)
    (hi : i < s.length) (hj : j < s.length) (vi vj : ℕ × ℚ) (u : ℕ) :
    amtOf ((s.set i vi).set j vj) u =
      amtOf s u - (if (s.get ⟨i, hi⟩).1 = u then (s.get ⟨i, hi⟩).2 else 0)
        + (if vi.1 = u then vi.2 else 0)
        - (if (s.get ⟨j, hj⟩).1 = u then (s.get ⟨j, hj⟩).2 else 0)
        + (if vj.1 = u then vj.2 else 0) := by
  have hj1 : j < (s.set i vi).length := by rw [List.length_set]; exact hj
  rw [amtOf_set _ _ _ hj1 hj1 u, amtOf_set _ _ _ hi hi u]
  have hget : (s.set i vi).get ⟨j, hj1⟩ = s.get ⟨j, hj⟩ := by
    rw [List.get_eq_getElem, List.getElem_set_ne hij]
    rfl
  rw [hget]
  try ring

/-- Reading a splice result at an index below the spliced one. -/
lemma get_eraseIdx_lt {α : Type} (l : List α) (i j : ℕ) (hij : j < i) (hj : j < l.length)
    (hj2 : j < (l.eraseIdx i).length) :
    (l.eraseIdx i).get ⟨j, hj2⟩ = l.get ⟨j, hj⟩ := by
  have h1 : (l.eraseIdx i)[j] = l[j] := by
    rw [List.getElem_eraseIdx, dif_pos hij]
  exact h1

/-- Reading a splice result at an index at or above the spliced one. -/
lemma get_eraseIdx_ge {α : Type} (l : List α) (i j : ℕ) (hij : i ≤ j) (hj : j + 1 < l.length)
    (hj2 : j < (l.eraseIdx i).length) :
    (l.eraseIdx i).get ⟨j, hj2⟩ = l.get ⟨j + 1, hj⟩ := by
  have h1 : (l.eraseIdx i)[j] = l[j + 1] := by
    rw [List.getElem_eraseIdx, dif_neg (by omega)]
  exact h1

/-- Every member of a double splice sits at an original index distinct from
the first spliced index and from the original position of the second. -/
lemma mem_eraseIdx2_imp {α : Type} (l : List α) (i r : ℕ) (hi : i < l.length) :
    ∀ a ∈ (l.eraseIdx i).eraseIdx r, ∃ j, ∃ hj : j < l.length,
      j ≠ i ∧ j ≠ (if r < i then r else r + 1) ∧ l.get ⟨j, hj⟩ = a := by
  intro a ha
  by_cases hr : r < (l.eraseIdx i).length
  · obtain ⟨j2, hj2, hj2ne, hget2⟩ := mem_eraseIdx_imp _ _ hr a ha
    by_cases hlt : j2 < i
    · refine ⟨j2, by omega, by omega, ?_, ?_⟩
      · by_cases hri : r < i
        · simpa [hri] using hj2ne
        · have : j2 < r + 1 := by omega
          simp only [if_neg hri]
          omega
      · rw [← hget2, get_eraseIdx_lt l i j2 hlt (by omega) hj2]
    · have hj2b : j2 + 1 < l.length := by
        have := hj2
        rw [List.length_eraseIdx, if_pos hi] at this
        omega
      refine ⟨j2 + 1, hj2b, by omega, ?_, ?_⟩
      · by_cases hri : r < i
        · simp only [if_pos hri]
          omega
        · simp only [if_neg hri]
          omega
      · rw [← hget2, get_eraseIdx_ge l i j2 (by omega) hj2b hj2]
  · have hrge : (l.eraseIdx i).length ≤ r := by omega
    rw [List.length_eraseIdx, if_pos hi] at hrge
    rw [List.eraseIdx_of_length_le (by
      rw [List.length_eraseIdx, if_pos hi]
      omega)] at ha
    obtain ⟨j2, hj2, hj2ne, hget2⟩ := mem_eraseIdx_imp _ _ hi a ha
    refine ⟨j2, hj2, hj2ne, ?_, hget2⟩
    have hri : ¬ (r < i) := by omega
    simp only [if_neg hri]
    omega

/-- Full characterisation of one loop iteration on a sound working state:
the transaction is from the selected debtor to the selected creditor for the
unrounded minimum, and the new state keeps distinct keys, nonzero whole-cent
balances and zero sum, shrinks, and moves exactly that minimum between the
two selected users. -/
lemma mcfStep_spec (s : List (ℕ × ℚ))
    (hnd : (keys s).Nodup)
    (hgz : ∀ p ∈ s, p.2 ≠ 0 ∧ Cents p.2)
    (hsum : sumAmts s = 0)
    (hlen : 2 ≤ s.length) :
    ∃ (cuid duid : ℕ) (cv dv : ℚ),
      cuid ∈ keys s ∧ duid ∈ keys s ∧ cuid ≠ duid ∧
      0 < cv ∧ dv < 0 ∧ Cents cv ∧ Cents dv ∧
      amtOf s cuid = cv ∧ amtOf s duid = dv ∧
      (mcfStep s).2 = ⟨duid, cuid, min cv (-dv)⟩ ∧
      (keys (mcfStep s).1).Nodup ∧
      (∀ p ∈ (mcfStep s).1, p.2 ≠ 0 ∧ Cents p.2) ∧
      sumAmts (mcfStep s).1 = 0 ∧
      (mcfStep s).1.length < s.length ∧
      (∀ u, amtOf (mcfStep s).1 u =
        amtOf s u + (if u = duid then min cv (-dv) else 0)
          - (if u = cuid then min cv (-dv) else 0)) := by
  obtain ⟨hci, hdi, hcpos, hdneg, hnei⟩ := mcf_select s (fun p hp => (hgz p hp).1) hsum hlen
  rw [amtAt_get s _ hci] at hcpos
  rw [amtAt_get s _ hdi] at hdneg
  have hcmem : s.get ⟨maxCreditIdx s, hci⟩ ∈ s := s.get_mem _ _
  have hdmem : s.get ⟨maxDebitIdx s, hdi⟩ ∈ s := s.get_mem _ _
  set cp := s.get ⟨maxCreditIdx s, hci⟩ with hcp_def
  set dp := s.get ⟨maxDebitIdx s, hdi⟩ with hdp_def
  have hcC : Cents cp.2 := (hgz cp hcmem).2
  have hdC : Cents dp.2 := (hgz dp hdmem).2
  have hkeyne : cp.1 ≠ dp.1 := by
    intro h
    apply hnei
    have hkci : maxCreditIdx s < (keys s).length := by rw [keys, List.length_map]; exact hci
    have hkdi : maxDebitIdx s < (keys s).length := by rw [keys, List.length_map]; exact hdi
    have h1 : (keys s).get ⟨maxCreditIdx s, hkci⟩ = (keys s).get ⟨maxDebitIdx s, hkdi⟩ := by
      simp only [keys, List.get_eq_getElem, List.getElem_map]
      exact h
    exact (List.Nodup.getElem_inj_iff hnd).mp (by simpa using h1)
  have hmabs : min |cp.2| |dp.2| = min cp.2 (-dp.2) := by
    rw [abs_of_pos hcpos, abs_of_neg hdneg]
  have hm_cents : Cents (min cp.2 (-dp.2)) := cents_min hcC (cents_neg hdC)
  have hround : round2 (min |cp.2| |dp.2|) = min cp.2 (-dp.2) := by
    rw [hmabs]; exact round2_cents hm_cents
  have hm_pos : 0 < min cp.2 (-dp.2) := lt_min hcpos (by linarith)
  have hm_le_c : min cp.2 (-dp.2) ≤ cp.2 := min_le_left _ _
  have hm_le_d : min cp.2 (-dp.2) ≤ -dp.2 := min_le_right _ _
  have hres := mcfStep_resolve s hci hdi hnei
  rw [← hcp_def, ← hdp_def] at hres
  have hs2len : s.length = ((s.set (maxCreditIdx s) (cp.1, cp.2 - min cp.2 (-dp.2))).set
      (maxDebitIdx s) (dp.1, dp.2 + min cp.2 (-dp.2))).length := by
    rw [List.length_set, List.length_set]
  have hamt2 : ∀ u, amtOf ((s.set (maxCreditIdx s) (cp.1, cp.2 - min cp.2 (-dp.2))).set
      (maxDebitIdx s) (dp.1, dp.2 + min cp.2 (-dp.2))) u =
      amtOf s u - (if cp.1 = u then cp.2 else 0) + (if cp.1 = u then cp.2 - min cp.2 (-dp.2) else 0)
        - (if dp.1 = u then dp.2 else 0) + (if dp.1 = u then dp.2 + min cp.2 (-dp.2) else 0) := by
    intro u
    exact amtOf_set2 s _ _ hnei hci hdi _ _ u
  have hsum2 : sumAmts ((s.set (maxCreditIdx s) (cp.1, cp.2 - min cp.2 (-dp.2))).set
      (maxDebitIdx s) (dp.1, dp.2 + min cp.2 (-dp.2))) = 0 := by
    rw [sumAmts_set2 s _ _ hnei hci hdi]
    rw [hsum]
    ring
  have hkeys2 : keys ((s.set (maxCreditIdx s) (cp.1, cp.2 - min cp.2 (-dp.2))).set
      (maxDebitIdx s) (dp.1, dp.2 + min cp.2 (-dp.2))) = keys s := by
    exact keys_set2 s _ _ hci hdi _ _
  rcases lt_trichotomy cp.2 (-dp.2) with hA | hC | hB
  · -- credit zeroed, debit survives
    have hmA : min cp.2 (-dp.2) = cp.2 := min_eq_left (le_of_lt hA)
    have hcz : |cp.2 - min cp.2 (-dp.2)| < 1/100 := by
      rw [hmA, sub_self, abs_zero]
      norm_num
    have hdz : ¬ (|dp.2 + min cp.2 (-dp.2)| < 1/100) := by
      rw [hmA]
      have hne0 : dp.2 + cp.2 ≠ 0 := by
        intro h
        have : cp.2 = -dp.2 := by linarith
        linarith [hA]
      exact not_lt.mpr (cents_one_le_abs (cents_add hdC hcC) hne0)
    have hstep : mcfStep s = (((s.set (maxCreditIdx s) (cp.1, cp.2 - min cp.2 (-dp.2))).set
        (maxDebitIdx s) (dp.1, dp.2 + min cp.2 (-dp.2))).eraseIdx (maxCreditIdx s),
        ⟨dp.1, cp.1, min cp.2 (-dp.2)⟩) := by
      rw [hres]
      simp only [hmabs]
      rw [round2_cents hm_cents]
      rw [if_neg hdz, if_pos hcz]
    have hcilen2 : maxCreditIdx s < ((s.set (maxCreditIdx s)
        (cp.1, cp.2 - min cp.2 (-dp.2))).set (maxDebitIdx s)
        (dp.1, dp.2 + min cp.2 (-dp.2))).length := by
      rw [← hs2len]; exact hci
    have hgc := set2_get s (maxCreditIdx s) (maxDebitIdx s)
      (cp.1, cp.2 - min cp.2 (-dp.2)) (dp.1, dp.2 + min cp.2 (-dp.2)) (maxCreditIdx s) hci
    rw [if_neg (fun h => hnei h.symm), if_pos rfl] at hgc
    refine ⟨cp.1, dp.1, cp.2, dp.2,
      (show cp.1 ∈ keys s from List.mem_map_of_mem Prod.fst hcmem),
      (show dp.1 ∈ keys s from List.mem_map_of_mem Prod.fst hdmem),
      hkeyne, hcpos, hdneg, hcC, hdC,
      amtOf_of_mem_nodup s hnd cp hcmem, amtOf_of_mem_nodup s hnd dp hdmem,
      ?_, ?_, ?_, ?_, ?_, ?_⟩
    · rw [hstep]
    · rw [hstep]
      show (keys (((s.set (maxCreditIdx s) (cp.1, cp.2 - min cp.2 (-dp.2))).set
        (maxDebitIdx s) (dp.1, dp.2 + min cp.2 (-dp.2))).eraseIdx (maxCreditIdx s))).Nodup
      rw [keys_eraseIdx, hkeys2]
      exact hnd.sublist (List.eraseIdx_sublist _ _)
    · rw [hstep]
      intro p hp
      obtain ⟨j, hj, hjne, hget⟩ := mem_eraseIdx_imp _ _ hcilen2 p hp
      have hj0 : j < s.length := by rw [hs2len]; exact hj
      have hval : p = if maxDebitIdx s = j then (dp.1, dp.2 + min cp.2 (-dp.2))
          else if maxCreditIdx s = j then (cp.1, cp.2 - min cp.2 (-dp.2))
          else s.get ⟨j, hj0⟩ := by
        rw [← hget]
        exact set2_get s _ _ _ _ j hj0
      by_cases hjd : maxDebitIdx s = j
      · rw [hval, if_pos hjd]
        constructor
        · show dp.2 + min cp.2 (-dp.2) ≠ 0
          rw [hmA]
          intro h0
          have hcd : cp.2 = -dp.2 := by linarith
          linarith [hA]
        · show Cents (dp.2 + min cp.2 (-dp.2))
          exact cents_add hdC hm_cents
      · by_cases hjc : maxCreditIdx s = j
        · exact absurd hjc.symm hjne
        · rw [hval, if_neg hjd, if_neg hjc]
          exact hgz _ (s.get_mem _ _)
    · rw [hstep]
      rw [sumAmts_eraseIdx _ _ hcilen2 hcilen2, hgc, hsum2, hmA]
      ring
    · rw [hstep]
      rw [List.length_eraseIdx, if_pos hcilen2, ← hs2len]
      omega
    · intro u
      rw [hstep]
      rw [amtOf_eraseIdx _ _ hcilen2 hcilen2 u, hgc, hamt2 u, hmA]
      by_cases hu1 : cp.1 = u <;> by_cases hu2 : dp.1 = u
      · exact absurd (hu1.trans hu2.symm) hkeyne
      · have hu1s : u = cp.1 := hu1.symm
        have hu2s : ¬ (u = dp.1) := fun h => hu2 h.symm
        simp only [if_pos hu1, if_neg hu2, if_pos hu1s, if_neg hu2s]
        ring
      · have hu1s : ¬ (u = cp.1) := fun h => hu1 h.symm
        have hu2s : u = dp.1 := hu2.symm
        simp only [if_neg hu1, if_pos hu2, if_neg hu1s, if_pos hu2s]
        ring
      · have hu1s : ¬ (u = cp.1) := fun h => hu1 h.symm
        have hu2s : ¬ (u = dp.1) := fun h => hu2 h.symm
        simp only [if_neg hu1, if_neg hu2, if_neg hu1s, if_neg hu2s]
        ring
  · -- both zeroed: double splice
    have hmC : min cp.2 (-dp.2) = cp.2 := by rw [← hC, min_self]
    have hd2 : dp.2 = -cp.2 := by linarith
    have hcz : |cp.2 - min cp.2 (-dp.2)| < 1/100 := by
      rw [hmC, sub_self, abs_zero]
      norm_num
    have hdz : |dp.2 + min cp.2 (-dp.2)| < 1/100 := by
      rw [hmC, hd2, show -cp.2 + cp.2 = 0 by ring, abs_zero]
      norm_num
    have hcilen2 : maxCreditIdx s < ((s.set (maxCreditIdx s)
        (cp.1, cp.2 - min cp.2 (-dp.2))).set (maxDebitIdx s)
        (dp.1, dp.2 + min cp.2 (-dp.2))).length := by
      rw [← hs2len]; exact hci
    have hgc := set2_get s (maxCreditIdx s) (maxDebitIdx s)
      (cp.1, cp.2 - min cp.2 (-dp.2)) (dp.1, dp.2 + min cp.2 (-dp.2)) (maxCreditIdx s) hci
    rw [if_neg (fun h => hnei h.symm), if_pos rfl] at hgc
    have hgd := set2_get s (maxCreditIdx s) (maxDebitIdx s)
      (cp.1, cp.2 - min cp.2 (-dp.2)) (dp.1, dp.2 + min cp.2 (-dp.2)) (maxDebitIdx s) hdi
    rw [if_pos rfl] at hgd
    rcases Nat.lt_or_ge (maxCreditIdx s) (maxDebitIdx s) with hlt | hge
    · -- debit index above credit index: removal index shifts down by one
      have hstep : mcfStep s = ((((s.set (maxCreditIdx s)
          (cp.1, cp.2 - min cp.2 (-dp.2))).set (maxDebitIdx s)
          (dp.1, dp.2 + min cp.2 (-dp.2))).eraseIdx (maxCreditIdx s)).eraseIdx
          (maxDebitIdx s - 1), ⟨dp.1, cp.1, min cp.2 (-dp.2)⟩) := by
        rw [hres]
        simp only [hmabs]
        rw [round2_cents hm_cents]
        rw [if_pos hdz, if_pos hcz, if_pos ⟨hlt, hcz⟩]
      have hrilen : maxDebitIdx s - 1 < (((s.set (maxCreditIdx s)
          (cp.1, cp.2 - min cp.2 (-dp.2))).set (maxDebitIdx s)
          (dp.1, dp.2 + min cp.2 (-dp.2))).eraseIdx (maxCreditIdx s)).length := by
        rw [List.length_eraseIdx, if_pos hcilen2, ← hs2len]
        omega
      have hrip : maxDebitIdx s - 1 + 1 < ((s.set (maxCreditIdx s)
          (cp.1, cp.2 - min cp.2 (-dp.2))).set (maxDebitIdx s)
          (dp.1, dp.2 + min cp.2 (-dp.2))).length := by
        rw [← hs2len]
        omega
      have hTd := get_eraseIdx_ge ((s.set (maxCreditIdx s)
          (cp.1, cp.2 - min cp.2 (-dp.2))).set (maxDebitIdx s)
          (dp.1, dp.2 + min cp.2 (-dp.2))) (maxCreditIdx s) (maxDebitIdx s - 1)
          (by omega) hrip hrilen
      have hdlen0 : maxDebitIdx s < ((s.set (maxCreditIdx s)
          (cp.1, cp.2 - min cp.2 (-dp.2))).set (maxDebitIdx s)
          (dp.1, dp.2 + min cp.2 (-dp.2))).length := by
        rw [← hs2len]; exact hdi
      have hfin : (⟨maxDebitIdx s - 1 + 1, hrip⟩ : Fin ((s.set (maxCreditIdx s)
          (cp.1, cp.2 - min cp.2 (-dp.2))).set (maxDebitIdx s)
          (dp.1, dp.2 + min cp.2 (-dp.2))).length) = ⟨maxDebitIdx s, hdlen0⟩ := by
        apply Fin.ext
        show maxDebitIdx s - 1 + 1 = maxDebitIdx s
        omega
      rw [hfin] at hTd
      rw [hgd] at hTd
      refine ⟨cp.1, dp.1, cp.2, dp.2,
        (show cp.1 ∈ keys s from List.mem_map_of_mem Prod.fst hcmem),
        (show dp.1 ∈ keys s from List.mem_map_of_mem Prod.fst hdmem),
        hkeyne, hcpos, hdneg, hcC, hdC,
        amtOf_of_mem_nodup s hnd cp hcmem, amtOf_of_mem_nodup s hnd dp hdmem,
        ?_, ?_, ?_, ?_, ?_, ?_⟩
      · rw [hstep]
      · rw [hstep]
        show (keys ((((s.set (maxCreditIdx s) (cp.1, cp.2 - min cp.2 (-dp.2))).set
          (maxDebitIdx s) (dp.1, dp.2 + min cp.2 (-dp.2))).eraseIdx
          (maxCreditIdx s)).eraseIdx (maxDebitIdx s - 1))).Nodup
        rw [keys_eraseIdx, keys_eraseIdx, hkeys2]
        exact (hnd.sublist (List.eraseIdx_sublist _ _)).sublist (List.eraseIdx_sublist _ _)
      · rw [hstep]
        intro p hp
        obtain ⟨j, hj, hjc, hjd, hget⟩ := mem_eraseIdx2_imp _ _ _ hcilen2 p hp
        rw [if_neg (by omega), show maxDebitIdx s - 1 + 1 = maxDebitIdx s from by omega] at hjd
        have hj0 : j < s.length := by rw [hs2len]; exact hj
        have hval : p = if maxDebitIdx s = j then (dp.1, dp.2 + min cp.2 (-dp.2))
            else if maxCreditIdx s = j then (cp.1, cp.2 - min cp.2 (-dp.2))
            else s.get ⟨j, hj0⟩ := by
          rw [← hget]
          exact set2_get s _ _ _ _ j hj0
        rw [hval, if_neg (fun h => hjd h.symm), if_neg (fun h => hjc h.symm)]
        exact hgz _ (s.get_mem _ _)
      · rw [hstep]
        rw [sumAmts_eraseIdx _ _ hrilen hrilen, hTd,
          sumAmts_eraseIdx _ _ hcilen2 hcilen2, hgc, hsum2, hmC, hd2]
        ring
      · rw [hstep]
        rw [List.length_eraseIdx, if_pos hrilen, List.length_eraseIdx, if_pos hcilen2,
          ← hs2len]
        omega
      · intro u
        rw [hstep]
        rw [amtOf_eraseIdx _ _ hrilen hrilen u, hTd,
          amtOf_eraseIdx _ _ hcilen2 hcilen2 u, hgc, hamt2 u, hmC, hd2]
        by_cases hu1 : cp.1 = u <;> by_cases hu2 : dp.1 = u
        · exact absurd (hu1.trans hu2.symm) hkeyne
        · have hu1s : u = cp.1 := hu1.symm
          have hu2s : ¬ (u = dp.1) := fun h => hu2 h.symm
          simp only [if_pos hu1, if_neg hu2, if_pos hu1s, if_neg hu2s]
          ring
        · have hu1s : ¬ (u = cp.1) := fun h => hu1 h.symm
          have hu2s : u = dp.1 := hu2.symm
          simp only [if_neg hu1, if_pos hu2, if_neg hu1s, if_pos hu2s]
          ring
        · have hu1s : ¬ (u = cp.1) := fun h => hu1 h.symm
          have hu2s : ¬ (u = dp.1) := fun h => hu2 h.symm
          simp only [if_neg hu1, if_neg hu2, if_neg hu1s, if_neg hu2s]
          ring
    · -- debit index below credit index: removal index unchanged
      have hdlt : maxDebitIdx s < maxCreditIdx s := by omega
      have hstep : mcfStep s = ((((s.set (maxCreditIdx s)
          (cp.1, cp.2 - min cp.2 (-dp.2))).set (maxDebitIdx s)
          (dp.1, dp.2 + min cp.2 (-dp.2))).eraseIdx (maxCreditIdx s)).eraseIdx
          (maxDebitIdx s), ⟨dp.1, cp.1, min cp.2 (-dp.2)⟩) := by
        rw [hres]
        simp only [hmabs]
        rw [round2_cents hm_cents]
        rw [if_pos hdz, if_pos hcz, if_neg (fun h => absurd h.1 (by omega))]
      have hrilen : maxDebitIdx s < (((s.set (maxCreditIdx s)
          (cp.1, cp.2 - min cp.2 (-dp.2))).set (maxDebitIdx s)
          (dp.1, dp.2 + min cp.2 (-dp.2))).eraseIdx (maxCreditIdx s)).length := by
        rw [List.length_eraseIdx, if_pos hcilen2, ← hs2len]
        omega
      have hdlen0 : maxDebitIdx s < ((s.set (maxCreditIdx s)
          (cp.1, cp.2 - min cp.2 (-dp.2))).set (maxDebitIdx s)
          (dp.1, dp.2 + min cp.2 (-dp.2))).length := by
        rw [← hs2len]; exact hdi
      have hTd := get_eraseIdx_lt ((s.set (maxCreditIdx s)
          (cp.1, cp.2 - min cp.2 (-dp.2))).set (maxDebitIdx s)
          (dp.1, dp.2 + min cp.2 (-dp.2))) (maxCreditIdx s) (maxDebitIdx s)
          hdlt hdlen0 hrilen
      rw [hgd] at hTd
      refine ⟨cp.1, dp.1, cp.2, dp.2,
        (show cp.1 ∈ keys s from List.mem_map_of_mem Prod.fst hcmem),
        (show dp.1 ∈ keys s from List.mem_map_of_mem Prod.fst hdmem),
        hkeyne, hcpos, hdneg, hcC, hdC,
        amtOf_of_mem_nodup s hnd cp hcmem, amtOf_of_mem_nodup s hnd dp hdmem,
        ?_, ?_, ?_, ?_, ?_, ?_⟩
      · rw [hstep]
      · rw [hstep]
        show (keys ((((s.set (maxCreditIdx s) (cp.1, cp.2 - min cp.2 (-dp.2))).set
          (maxDebitIdx s) (dp.1, dp.2 + min cp.2 (-dp.2))).eraseIdx
          (maxCreditIdx s)).eraseIdx (maxDebitIdx s))).Nodup
        rw [keys_eraseIdx, keys_eraseIdx, hkeys2]
        exact (hnd.sublist (List.eraseIdx_sublist _ _)).sublist (List.eraseIdx_sublist _ _)
      · rw [hstep]
        intro p hp
        obtain ⟨j, hj, hjc, hjd, hget⟩ := mem_eraseIdx2_imp _ _ _ hcilen2 p hp
        rw [if_pos hdlt] at hjd
        have hj0 : j < s.length := by rw [hs2len]; exact hj
        have hval : p = if maxDebitIdx s = j then (dp.1, dp.2 + min cp.2 (-dp.2))
            else if maxCreditIdx s = j then (cp.1, cp.2 - min cp.2 (-dp.2))
            else s.get ⟨j, hj0⟩ := by
          rw [← hget]
          exact set2_get s _ _ _ _ j hj0
        rw [hval, if_neg (fun h => hjd h.symm), if_neg (fun h => hjc h.symm)]
        exact hgz _ (s.get_mem _ _)
      · rw [hstep]
        rw [sumAmts_eraseIdx _ _ hrilen hrilen, hTd,
          sumAmts_eraseIdx _ _ hcilen2 hcilen2, hgc, hsum2, hmC, hd2]
        ring
      · rw [hstep]
        rw [List.length_eraseIdx, if_pos hrilen, List.length_eraseIdx, if_pos hcilen2,
          ← hs2len]
        omega
      · intro u
        rw [hstep]
        rw [amtOf_eraseIdx _ _ hrilen hrilen u, hTd,
          amtOf_eraseIdx _ _ hcilen2 hcilen2 u, hgc, hamt2 u, hmC, hd2]
        by_cases hu1 : cp.1 = u <;> by_cases hu2 : dp.1 = u
        · exact absurd (hu1.trans hu2.symm) hkeyne
        · have hu1s : u = cp.1 := hu1.symm
          have hu2s : ¬ (u = dp.1) := fun h => hu2 h.symm
          simp only [if_pos hu1, if_neg hu2, if_pos hu1s, if_neg hu2s]
          ring
        · have hu1s : ¬ (u = cp.1) := fun h => hu1 h.symm
          have hu2s : u = dp.1 := hu2.symm
          simp only [if_neg hu1, if_pos hu2, if_neg hu1s, if_pos hu2s]
          ring
        · have hu1s : ¬ (u = cp.1) := fun h => hu1 h.symm
          have hu2s : ¬ (u = dp.1) := fun h => hu2 h.symm
          simp only [if_neg hu1, if_neg hu2, if_neg hu1s, if_neg hu2s]
          ring
  · -- debit zeroed, credit survives
    have hmB : min cp.2 (-dp.2) = -dp.2 := min_eq_right (le_of_lt hB)
    have hcz : ¬ (|cp.2 - min cp.2 (-dp.2)| < 1/100) := by
      rw [hmB]
      have hne0 : cp.2 - -dp.2 ≠ 0 := by
        intro h
        have hcd : cp.2 = -dp.2 := by linarith
        linarith [hB]
      exact not_lt.mpr (cents_one_le_abs (cents_sub hcC (cents_neg hdC)) hne0)
    have hdz : |dp.2 + min cp.2 (-dp.2)| < 1/100 := by
      rw [hmB]
      rw [show dp.2 + -dp.2 = 0 by ring, abs_zero]
      norm_num
    have hstep : mcfStep s = (((s.set (maxCreditIdx s) (cp.1, cp.2 - min cp.2 (-dp.2))).set
        (maxDebitIdx s) (dp.1, dp.2 + min cp.2 (-dp.2))).eraseIdx (maxDebitIdx s),
        ⟨dp.1, cp.1, min cp.2 (-dp.2)⟩) := by
      rw [hres]
      simp only [hmabs]
      rw [round2_cents hm_cents]
      rw [if_pos hdz, if_neg hcz, if_neg (fun h => hcz h.2)]
    have hdilen2 : maxDebitIdx s < ((s.set (maxCreditIdx s)
        (cp.1, cp.2 - min cp.2 (-dp.2))).set (maxDebitIdx s)
        (dp.1, dp.2 + min cp.2 (-dp.2))).length := by
      rw [← hs2len]; exact hdi
    have hgd := set2_get s (maxCreditIdx s) (maxDebitIdx s)
      (cp.1, cp.2 - min cp.2 (-dp.2)) (dp.1, dp.2 + min cp.2 (-dp.2)) (maxDebitIdx s) hdi
    rw [if_pos rfl] at hgd
    refine ⟨cp.1, dp.1, cp.2, dp.2,
      (show cp.1 ∈ keys s from List.mem_map_of_mem Prod.fst hcmem),
      (show dp.1 ∈ keys s from List.mem_map_of_mem Prod.fst hdmem),
      hkeyne, hcpos, hdneg, hcC, hdC,
      amtOf_of_mem_nodup s hnd cp hcmem, amtOf_of_mem_nodup s hnd dp hdmem,
      ?_, ?_, ?_, ?_, ?_, ?_⟩
    · rw [hstep]
    · rw [hstep]
      show (keys (((s.set (maxCreditIdx s) (cp.1, cp.2 - min cp.2 (-dp.2))).set
        (maxDebitIdx s) (dp.1, dp.2 + min cp.2 (-dp.2))).eraseIdx (maxDebitIdx s))).Nodup
      rw [keys_eraseIdx, hkeys2]
      exact hnd.sublist (List.eraseIdx_sublist _ _)
    · rw [hstep]
      intro p hp
      obtain ⟨j, hj, hjne, hget⟩ := mem_eraseIdx_imp _ _ hdilen2 p hp
      have hj0 : j < s.length := by rw [hs2len]; exact hj
      have hval : p = if maxDebitIdx s = j then (dp.1, dp.2 + min cp.2 (-dp.2))
          else if maxCreditIdx s = j then (cp.1, cp.2 - min cp.2 (-dp.2))
          else s.get ⟨j, hj0⟩ := by
        rw [← hget]
        exact set2_get s _ _ _ _ j hj0
      by_cases hjd : maxDebitIdx s = j
      · exact absurd hjd.symm hjne
      · by_cases hjc : maxCreditIdx s = j
        · rw [hval, if_neg hjd, if_pos hjc]
          constructor
          · show cp.2 - min cp.2 (-dp.2) ≠ 0
            rw [hmB]
            intro h0
            have hcd : cp.2 = -dp.2 := by linarith
            linarith [hB]
          · show Cents (cp.2 - min cp.2 (-dp.2))
            exact cents_sub hcC hm_cents
        · rw [hval, if_neg hjd, if_neg hjc]
          exact hgz _ (s.get_mem _ _)
    · rw [hstep]
      rw [sumAmts_eraseIdx _ _ hdilen2 hdilen2, hgd, hsum2, hmB]
      ring
    · rw [hstep]
      rw [List.length_eraseIdx, if_pos hdilen2, ← hs2len]
      omega
    · intro u
      rw [hstep]
      rw [amtOf_eraseIdx _ _ hdilen2 hdilen2 u, hgd, hamt2 u, hmB]
      by_cases hu1 : cp.1 = u <;> by_cases hu2 : dp.1 = u
      · exact absurd (hu1.trans hu2.symm) hkeyne
      · have hu1s : u = cp.1 := hu1.symm
        have hu2s : ¬ (u = dp.1) := fun h => hu2 h.symm
        simp only [if_pos hu1, if_neg hu2, if_pos hu1s, if_neg hu2s]
        ring
      · have hu1s : ¬ (u = cp.1) := fun h => hu1 h.symm
        have hu2s : u = dp.1 := hu2.symm
        simp only [if_neg hu1, if_pos hu2, if_neg hu1s, if_pos hu2s]
        ring
      · have hu1s : ¬ (u = cp.1) := fun h => hu1 h.symm
        have hu2s : ¬ (u = dp.1) := fun h => hu2 h.symm
        simp only [if_neg hu1, if_neg hu2, if_neg hu1s, if_neg hu2s]
        ring

/-- Splitting the received total over an appended transaction. -/
lemma totalTo_append (u : ℕ) (acc : List Txn) (t : Txn) :
    totalTo u (acc ++ [t]) = totalTo u acc + (if t.toUserId = u then t.amount else 0) := by
  rw [totalTo, List.map_append, List.sum_append]
  simp [totalTo]

/-- Splitting the sent total over an appended transaction. -/
lemma totalFrom_append (u : ℕ) (acc : List Txn) (t : Txn) :
    totalFrom u (acc ++ [t]) = totalFrom u acc + (if t.fromUserId = u then t.amount else 0) := by
  rw [totalFrom, List.map_append, List.sum_append]
  simp [totalFrom]

/-- Master theorem on the greedy settlement loop: on a working state with
distinct keys, nonzero whole-cent balances and zero sum, and fuel at least
the state length, the loop terminates; each user's received total grows by
exactly their positive working balance and their sent total by exactly the
magnitude of their negative working balance. -/
lemma mcfRun_spec : ∀ (fuel : ℕ) (s : List (ℕ × ℚ)) (acc : List Txn),
    (keys s).Nodup → (∀ p ∈ s, p.2 ≠ 0 ∧ Cents p.2) → sumAmts s = 0 → s.length ≤ fuel →
    ∃ ts, mcfRun fuel s acc = some ts ∧
      ∀ u, totalTo u ts = totalTo u acc + max (amtOf s u) 0 ∧
        totalFrom u ts = totalFrom u acc + max (-amtOf s u) 0 := by
  intro fuel
  induction fuel with
  | zero =>
    intro s acc hnd hgz hsum hlen
    have hs_nil : s = [] := List.length_eq_zero.mp (by omega)
    subst hs_nil
    refine ⟨acc, by rw [mcfRun]; rw [if_pos (by simp)], ?_⟩
    intro u
    constructor
    · rw [show amtOf [] u = 0 from rfl]
      simp
    · rw [show amtOf [] u = 0 from rfl]
      simp
  | succ n ih =>
    intro s acc hnd hgz hsum hlen
    by_cases hl : s.length ≤ 1
    · have hs_nil : s = [] := by
        cases s with
        | nil => rfl
        | cons p t =>
          cases t with
          | nil =>
            exfalso
            have h1 := (hgz p (by simp)).1
            have h2 : sumAmts [p] = p.2 := by simp [sumAmts]
            rw [h2] at hsum
            exact h1 hsum
          | cons q r => simp at hl
      subst hs_nil
      refine ⟨acc, by rw [mcfRun]; rw [if_pos (by simp)], ?_⟩
      intro u
      constructor
      · rw [show amtOf [] u = 0 from rfl]
        simp
      · rw [show amtOf [] u = 0 from rfl]
        simp
    · obtain ⟨cuid, duid, cv, dv, hcmemk, hdmemk, hkne, hcv, hdv, hcCv, hdCv, hamtc, hamtd,
        htxn, hnd2, hgz2, hsum2, hlen2, hamt2⟩ := mcfStep_spec s hnd hgz hsum (by omega)
      obtain ⟨ts, hrun, htot⟩ := ih (mcfStep s).1 (acc ++ [(mcfStep s).2]) hnd2 hgz2 hsum2
        (by omega)
      refine ⟨ts, ?_, ?_⟩
      · rw [mcfRun]
        rw [if_neg (by omega)]
        exact hrun
      · intro u
        obtain ⟨h1, h2⟩ := htot u
        have hmlec : min cv (-dv) ≤ cv := min_le_left _ _
        have hmled : min cv (-dv) ≤ -dv := min_le_right _ _
        have hmpos : 0 < min cv (-dv) := lt_min hcv (by linarith)
        constructor
        · rw [h1, totalTo_append, htxn, hamt2 u]
          by_cases hu1 : u = cuid
          · subst hu1
            rw [hamtc] at *
            have hne2 : ¬ (u = duid) := fun h => hkne (h ▸ rfl)
            simp only [if_pos rfl, if_neg (fun h : duid = u => hkne ((h.symm : u = duid) ▸ rfl)),
              if_neg hne2, if_true, if_false]
            rw [max_eq_left (by linarith), max_eq_left (by linarith)]
            ring
          · by_cases hu2 : u = duid
            · subst hu2
              rw [hamtd] at *
              simp only [if_pos rfl, if_neg (fun h : cuid = u => hu1 h.symm), if_neg hu1,
                if_true, if_false]
              rw [max_eq_right (by linarith), max_eq_right (by linarith)]
              ring
            · simp only [if_neg (fun h : cuid = u => hu1 h.symm),
                if_neg (fun h : duid = u => hu2 h.symm), if_neg hu1, if_neg hu2]
              ring_nf
        · rw [h2, totalFrom_append, htxn, hamt2 u]
          by_cases hu1 : u = cuid
          · subst hu1
            rw [hamtc] at *
            have hne2 : ¬ (u = duid) := fun h => hkne (h ▸ rfl)
            simp only [if_pos rfl, if_neg (fun h : duid = u => hkne ((h.symm : u = duid) ▸ rfl)),
              if_neg hne2, if_true, if_false]
            rw [max_eq_right (by linarith), max_eq_right (by linarith)]
            ring
          · by_cases hu2 : u = duid
            · subst hu2
              rw [hamtd] at *
              simp only [if_pos rfl, if_neg (fun h : cuid = u => hu1 h.symm), if_neg hu1,
                if_true, if_false]
              rw [max_eq_left (by linarith), max_eq_left (by linarith)]
              ring
            · simp only [if_neg (fun h : cuid = u => hu1 h.symm),
                if_neg (fun h : duid = u => hu2 h.symm), if_neg hu1, if_neg hu2]
              ring_nf

/-- When both reduces select the same row (all working amounts equal) and
that row is a nonzero whole number of cents, the iteration pushes a
self-transfer and leaves the working list untouched. -/
lemma mcfStep_diag (s : List (ℕ × ℚ)) (hci : maxCreditIdx s < s.length)
    (hali : maxDebitIdx s = maxCreditIdx s)
    (hnz : (s.get ⟨maxCreditIdx s, hci⟩).2 ≠ 0)
    (hC : Cents (s.get ⟨maxCreditIdx s, hci⟩).2) :
    mcfStep s = (s, ⟨(s.get ⟨maxCreditIdx s, hci⟩).1, (s.get ⟨maxCreditIdx s, hci⟩).1,
      |(s.get ⟨maxCreditIdx s, hci⟩).2|⟩) := by
  have habs : 1/100 ≤ |(s.get ⟨maxCreditIdx s, hci⟩).2| := cents_one_le_abs hC hnz
  have hgd : s.getD (maxCreditIdx s) (0, 0) = s.get ⟨maxCreditIdx s, hci⟩ := by
    rw [List.getD_eq_getElem _ _ hci]
    rfl
  have hlen1 : maxCreditIdx s < (s.set (maxCreditIdx s) ((s.get ⟨maxCreditIdx s, hci⟩).1,
      (s.get ⟨maxCreditIdx s, hci⟩).2 - |(s.get ⟨maxCreditIdx s, hci⟩).2|)).length := by
    rw [List.length_set]
    exact hci
  have hs1 : (s.set (maxCreditIdx s) ((s.get ⟨maxCreditIdx s, hci⟩).1,
      (s.get ⟨maxCreditIdx s, hci⟩).2 - |(s.get ⟨maxCreditIdx s, hci⟩).2|)).getD
      (maxCreditIdx s) (0, 0) =
      ((s.get ⟨maxCreditIdx s, hci⟩).1,
      (s.get ⟨maxCreditIdx s, hci⟩).2 - |(s.get ⟨maxCreditIdx s, hci⟩).2|) := by
    rw [List.getD_eq_getElem _ _ hlen1, List.getElem_set_self]
  have hs2 : (s.set (maxCreditIdx s) ((s.get ⟨maxCreditIdx s, hci⟩).1,
      (s.get ⟨maxCreditIdx s, hci⟩).2 - |(s.get ⟨maxCreditIdx s, hci⟩).2|)).set
      (maxCreditIdx s) ((s.get ⟨maxCreditIdx s, hci⟩).1,
      (s.get ⟨maxCreditIdx s, hci⟩).2 - |(s.get ⟨maxCreditIdx s, hci⟩).2| +
        |(s.get ⟨maxCreditIdx s, hci⟩).2|) = s := by
    rw [List.set_set]
    have h2 : (s.get ⟨maxCreditIdx s, hci⟩).2 - |(s.get ⟨maxCreditIdx s, hci⟩).2| +
        |(s.get ⟨maxCreditIdx s, hci⟩).2| = (s.get ⟨maxCreditIdx s, hci⟩).2 := by
      ring
    rw [h2]
    have h3 : ((s.get ⟨maxCreditIdx s, hci⟩).1, (s.get ⟨maxCreditIdx s, hci⟩).2) =
        s.get ⟨maxCreditIdx s, hci⟩ := rfl
    rw [h3, list_set_get_self]
  simp only [mcfStep, hali, hgd, min_self, hs1]
  rw [hs2]
  have hcond : ¬ (|(s.getD (maxCreditIdx s) (0, 0)).2| < 1/100) := by
    rw [hgd]
    exact not_lt.mpr habs
  rw [hgd]
  rw [if_neg (not_lt.mpr habs), if_neg (not_lt.mpr habs)]
  rw [round2_cents (cents_abs hC)]

/-- General soundness of one loop iteration on any working state whose rows
are distinct-key nonzero whole-cent balances (no zero-sum assumption):
either the iteration is the frozen self-transfer case, or it preserves the
row invariant and the value sum and pushes a transfer of at least one cent
between two distinct users; in both cases the recorded amount is the
unrounded minimum of the two selected magnitudes. -/
lemma mcfStep_general (s : List (ℕ × ℚ))
    (hnd : (keys s).Nodup)
    (hgz : ∀ p ∈ s, p.2 ≠ 0 ∧ Cents p.2)
    (hlen : 2 ≤ s.length) :
    ((mcfStep s).1 = s ∨
      ((keys (mcfStep s).1).Nodup ∧ (∀ p ∈ (mcfStep s).1, p.2 ≠ 0 ∧ Cents p.2) ∧
        sumAmts (mcfStep s).1 = sumAmts s ∧
        1/100 ≤ (mcfStep s).2.amount ∧
        (mcfStep s).2.fromUserId ≠ (mcfStep s).2.toUserId)) ∧
    (mcfStep s).2.amount = min |amtAt s (maxCreditIdx s)| |amtAt s (maxDebitIdx s)| := by
  have h0 : 0 < s.length := by omega
  obtain ⟨hci, _⟩ := maxCreditIdx_spec s h0
  obtain ⟨hdi, _⟩ := maxDebitIdx_spec s h0
  have hcmem : s.get ⟨maxCreditIdx s, hci⟩ ∈ s := s.get_mem _ _
  have hdmem : s.get ⟨maxDebitIdx s, hdi⟩ ∈ s := s.get_mem _ _
  set cp := s.get ⟨maxCreditIdx s, hci⟩ with hcp_def
  set dp := s.get ⟨maxDebitIdx s, hdi⟩ with hdp_def
  have hcC : Cents cp.2 := (hgz cp hcmem).2
  have hdC : Cents dp.2 := (hgz dp hdmem).2
  have hcnz : cp.2 ≠ 0 := (hgz cp hcmem).1
  have hdnz : dp.2 ≠ 0 := (hgz dp hdmem).1
  have hcat : amtAt s (maxCreditIdx s) = cp.2 := amtAt_get s _ hci
  have hdat : amtAt s (maxDebitIdx s) = dp.2 := amtAt_get s _ hdi
  by_cases hali : maxDebitIdx s = maxCreditIdx s
  · have hstep := mcfStep_diag s hci hali hcnz hcC
    have hdat2 : amtAt s (maxDebitIdx s) = cp.2 := by
      rw [hali]
      exact hcat
    constructor
    · left
      rw [hstep]
    · rw [hstep, hcat, hdat2]
      show |cp.2| = min |cp.2| |cp.2|
      rw [min_self]
  · have hnei : maxCreditIdx s ≠ maxDebitIdx s := fun h => hali h.symm
    have hkeyne : dp.1 ≠ cp.1 := by
      intro h
      apply hnei
      have hkci : maxCreditIdx s < (keys s).length := by rw [keys, List.length_map]; exact hci
      have hkdi : maxDebitIdx s < (keys s).length := by rw [keys, List.length_map]; exact hdi
      have h1 : (keys s).get ⟨maxCreditIdx s, hkci⟩ = (keys s).get ⟨maxDebitIdx s, hkdi⟩ := by
        simp only [keys, List.get_eq_getElem, List.getElem_map]
        exact h.symm
      exact (List.Nodup.getElem_inj_iff hnd).mp (by simpa using h1)
    have hm_cents : Cents (min |cp.2| |dp.2|) := cents_min (cents_abs hcC) (cents_abs hdC)
    have hm_ge : 1/100 ≤ min |cp.2| |dp.2| :=
      le_min (cents_one_le_abs hcC hcnz) (cents_one_le_abs hdC hdnz)
    have hround : round2 (min |cp.2| |dp.2|) = min |cp.2| |dp.2| := round2_cents hm_cents
    have hres := mcfStep_resolve s hci hdi hnei
    rw [← hcp_def, ← hdp_def] at hres
    have hs2len : s.length = ((s.set (maxCreditIdx s)
        (cp.1, cp.2 - min |cp.2| |dp.2|)).set (maxDebitIdx s)
        (dp.1, dp.2 + min |cp.2| |dp.2|)).length := by
      rw [List.length_set, List.length_set]
    have hcilen2 : maxCreditIdx s < ((s.set (maxCreditIdx s)
        (cp.1, cp.2 - min |cp.2| |dp.2|)).set (maxDebitIdx s)
        (dp.1, dp.2 + min |cp.2| |dp.2|)).length := by
      rw [← hs2len]; exact hci
    have hdilen2 : maxDebitIdx s < ((s.set (maxCreditIdx s)
        (cp.1, cp.2 - min |cp.2| |dp.2|)).set (maxDebitIdx s)
        (dp.1, dp.2 + min |cp.2| |dp.2|)).length := by
      rw [← hs2len]; exact hdi
    have hsum2 : sumAmts ((s.set (maxCreditIdx s) (cp.1, cp.2 - min |cp.2| |dp.2|)).set
        (maxDebitIdx s) (dp.1, dp.2 + min |cp.2| |dp.2|)) = sumAmts s := by
      rw [sumAmts_set2 s _ _ hnei hci hdi]
      ring
    have hkeys2 : keys ((s.set (maxCreditIdx s) (cp.1, cp.2 - min |cp.2| |dp.2|)).set
        (maxDebitIdx s) (dp.1, dp.2 + min |cp.2| |dp.2|)) = keys s :=
      keys_set2 s _ _ hci hdi _ _
    have hgc := set2_get s (maxCreditIdx s) (maxDebitIdx s)
      (cp.1, cp.2 - min |cp.2| |dp.2|) (dp.1, dp.2 + min |cp.2| |dp.2|) (maxCreditIdx s) hci
    rw [if_neg (fun h => hnei h.symm), if_pos rfl] at hgc
    have hgd := set2_get s (maxCreditIdx s) (maxDebitIdx s)
      (cp.1, cp.2 - min |cp.2| |dp.2|) (dp.1, dp.2 + min |cp.2| |dp.2|) (maxDebitIdx s) hdi
    rw [if_pos rfl] at hgd
    by_cases hP : abs (cp.2 - min |cp.2| |dp.2|) < 1/100
    · have hPz : cp.2 - min |cp.2| |dp.2| = 0 :=
        cents_eq_zero_of_abs_lt (cents_sub hcC hm_cents) hP
      by_cases hQ : abs (dp.2 + min |cp.2| |dp.2|) < 1/100
      · -- both removal conditions fire: double splice
        have hQz : dp.2 + min |cp.2| |dp.2| = 0 :=
          cents_eq_zero_of_abs_lt (cents_add hdC hm_cents) hQ
        rcases Nat.lt_or_ge (maxCreditIdx s) (maxDebitIdx s) with hlt | hge
        · have hstep : mcfStep s = ((((s.set (maxCreditIdx s)
              (cp.1, cp.2 - min |cp.2| |dp.2|)).set (maxDebitIdx s)
              (dp.1, dp.2 + min |cp.2| |dp.2|)).eraseIdx (maxCreditIdx s)).eraseIdx
              (maxDebitIdx s - 1), ⟨dp.1, cp.1, min |cp.2| |dp.2|⟩) := by
            rw [hres]
            simp only [hround]
            rw [if_pos hQ, if_pos hP, if_pos ⟨hlt, hP⟩]
          have hrilen : maxDebitIdx s - 1 < (((s.set (maxCreditIdx s)
              (cp.1, cp.2 - min |cp.2| |dp.2|)).set (maxDebitIdx s)
              (dp.1, dp.2 + min |cp.2| |dp.2|)).eraseIdx (maxCreditIdx s)).length := by
            rw [List.length_eraseIdx, if_pos hcilen2, ← hs2len]
            omega
          have hrip : maxDebitIdx s - 1 + 1 < ((s.set (maxCreditIdx s)
              (cp.1, cp.2 - min |cp.2| |dp.2|)).set (maxDebitIdx s)
              (dp.1, dp.2 + min |cp.2| |dp.2|)).length := by
            rw [← hs2len]
            omega
          have hTd := get_eraseIdx_ge ((s.set (maxCreditIdx s)
              (cp.1, cp.2 - min |cp.2| |dp.2|)).set (maxDebitIdx s)
              (dp.1, dp.2 + min |cp.2| |dp.2|)) (maxCreditIdx s) (maxDebitIdx s - 1)
              (by omega) hrip hrilen
          have hfin : (⟨maxDebitIdx s - 1 + 1, hrip⟩ : Fin ((s.set (maxCreditIdx s)
              (cp.1, cp.2 - min |cp.2| |dp.2|)).set (maxDebitIdx s)
              (dp.1, dp.2 + min |cp.2| |dp.2|)).length) = ⟨maxDebitIdx s, hdilen2⟩ := by
            apply Fin.ext
            show maxDebitIdx s - 1 + 1 = maxDebitIdx s
            omega
          rw [hfin, hgd] at hTd
          constructor
          · right
            refine ⟨?_, ?_, ?_, ?_, ?_⟩
            · rw [hstep]
              show (keys ((((s.set (maxCreditIdx s) (cp.1, cp.2 - min |cp.2| |dp.2|)).set
                (maxDebitIdx s) (dp.1, dp.2 + min |cp.2| |dp.2|)).eraseIdx
                (maxCreditIdx s)).eraseIdx (maxDebitIdx s - 1))).Nodup
              rw [keys_eraseIdx, keys_eraseIdx, hkeys2]
              exact (hnd.sublist (List.eraseIdx_sublist _ _)).sublist
                (List.eraseIdx_sublist _ _)
            · rw [hstep]
              intro p hp
              obtain ⟨j, hj, hjc, hjd, hget⟩ := mem_eraseIdx2_imp _ _ _ hcilen2 p hp
              rw [if_neg (by omega)] at hjd
              have hjd2 : j ≠ maxDebitIdx s := by omega
              have hj0 : j < s.length := by rw [hs2len]; exact hj
              have hval : p = if maxDebitIdx s = j then (dp.1, dp.2 + min |cp.2| |dp.2|)
                  else if maxCreditIdx s = j then (cp.1, cp.2 - min |cp.2| |dp.2|)
                  else s.get ⟨j, hj0⟩ := by
                rw [← hget]
                exact set2_get s _ _ _ _ j hj0
              rw [hval, if_neg (fun h => hjd2 h.symm), if_neg (fun h => hjc h.symm)]
              exact hgz _ (s.get_mem _ _)
            · rw [hstep]
              rw [sumAmts_eraseIdx _ _ hrilen hrilen, hTd,
                sumAmts_eraseIdx _ _ hcilen2 hcilen2, hgc, hsum2]
              show sumAmts s - (cp.2 - min |cp.2| |dp.2|) - (dp.2 + min |cp.2| |dp.2|) = sumAmts s
              rw [hPz, hQz]
              ring
            · rw [hstep]
              exact hm_ge
            · rw [hstep]
              exact hkeyne
          · rw [hstep, hcat, hdat]
        · have hdlt : maxDebitIdx s < maxCreditIdx s := by omega
          have hstep : mcfStep s = ((((s.set (maxCreditIdx s)
              (cp.1, cp.2 - min |cp.2| |dp.2|)).set (maxDebitIdx s)
              (dp.1, dp.2 + min |cp.2| |dp.2|)).eraseIdx (maxCreditIdx s)).eraseIdx
              (maxDebitIdx s), ⟨dp.1, cp.1, min |cp.2| |dp.2|⟩) := by
            rw [hres]
            simp only [hround]
            rw [if_pos hQ, if_pos hP, if_neg (fun h => absurd h.1 (by omega))]
          have hrilen : maxDebitIdx s < (((s.set (maxCreditIdx s)
              (cp.1, cp.2 - min |cp.2| |dp.2|)).set (maxDebitIdx s)
              (dp.1, dp.2 + min |cp.2| |dp.2|)).eraseIdx (maxCreditIdx s)).length := by
            rw [List.length_eraseIdx, if_pos hcilen2, ← hs2len]
            omega
          have hTd := get_eraseIdx_lt ((s.set (maxCreditIdx s)
              (cp.1, cp.2 - min |cp.2| |dp.2|)).set (maxDebitIdx s)
              (dp.1, dp.2 + min |cp.2| |dp.2|)) (maxCreditIdx s) (maxDebitIdx s)
              hdlt hdilen2 hrilen
          rw [hgd] at hTd
          constructor
          · right
            refine ⟨?_, ?_, ?_, ?_, ?_⟩
            · rw [hstep]
              show (keys ((((s.set (maxCreditIdx s) (cp.1, cp.2 - min |cp.2| |dp.2|)).set
                (maxDebitIdx s) (dp.1, dp.2 + min |cp.2| |dp.2|)).eraseIdx
                (maxCreditIdx s)).eraseIdx (maxDebitIdx s))).Nodup
              rw [keys_eraseIdx, keys_eraseIdx, hkeys2]
              exact (hnd.sublist (List.eraseIdx_sublist _ _)).sublist
                (List.eraseIdx_sublist _ _)
            · rw [hstep]
              intro p hp
              obtain ⟨j, hj, hjc, hjd, hget⟩ := mem_eraseIdx2_imp _ _ _ hcilen2 p hp
              rw [if_pos hdlt] at hjd
              have hj0 : j < s.length := by rw [hs2len]; exact hj
              have hval : p = if maxDebitIdx s = j then (dp.1, dp.2 + min |cp.2| |dp.2|)
                  else if maxCreditIdx s = j then (cp.1, cp.2 - min |cp.2| |dp.2|)
                  else s.get ⟨j, hj0⟩ := by
                rw [← hget]
                exact set2_get s _ _ _ _ j hj0
              rw [hval, if_neg (fun h => hjd h.symm), if_neg (fun h => hjc h.symm)]
              exact hgz _ (s.get_mem _ _)
            · rw [hstep]
              rw [sumAmts_eraseIdx _ _ hrilen hrilen, hTd,
                sumAmts_eraseIdx _ _ hcilen2 hcilen2, hgc, hsum2]
              show sumAmts s - (cp.2 - min |cp.2| |dp.2|) - (dp.2 + min |cp.2| |dp.2|) = sumAmts s
              rw [hPz, hQz]
              ring
            · rw [hstep]
              exact hm_ge
            · rw [hstep]
              exact hkeyne
          · rw [hstep, hcat, hdat]
      · -- only the credit row is removed
        have hQnz : dp.2 + min |cp.2| |dp.2| ≠ 0 := by
          intro h0
          apply hQ
          rw [h0, abs_zero]
          norm_num
        have hstep : mcfStep s = (((s.set (maxCreditIdx s)
            (cp.1, cp.2 - min |cp.2| |dp.2|)).set (maxDebitIdx s)
            (dp.1, dp.2 + min |cp.2| |dp.2|)).eraseIdx (maxCreditIdx s),
            ⟨dp.1, cp.1, min |cp.2| |dp.2|⟩) := by
          rw [hres]
          simp only [hround]
          rw [if_neg hQ, if_pos hP]
        constructor
        · right
          refine ⟨?_, ?_, ?_, ?_, ?_⟩
          · rw [hstep]
            show (keys (((s.set (maxCreditIdx s) (cp.1, cp.2 - min |cp.2| |dp.2|)).set
              (maxDebitIdx s) (dp.1, dp.2 + min |cp.2| |dp.2|)).eraseIdx
              (maxCreditIdx s))).Nodup
            rw [keys_eraseIdx, hkeys2]
            exact hnd.sublist (List.eraseIdx_sublist _ _)
          · rw [hstep]
            intro p hp
            obtain ⟨j, hj, hjne, hget⟩ := mem_eraseIdx_imp _ _ hcilen2 p hp
            have hj0 : j < s.length := by rw [hs2len]; exact hj
            have hval : p = if maxDebitIdx s = j then (dp.1, dp.2 + min |cp.2| |dp.2|)
                else if maxCreditIdx s = j then (cp.1, cp.2 - min |cp.2| |dp.2|)
                else s.get ⟨j, hj0⟩ := by
              rw [← hget]
              exact set2_get s _ _ _ _ j hj0
            by_cases hjd : maxDebitIdx s = j
            · rw [hval, if_pos hjd]
              exact ⟨hQnz, cents_add hdC hm_cents⟩
            · by_cases hjc : maxCreditIdx s = j
              · exact absurd hjc.symm hjne
              · rw [hval, if_neg hjd, if_neg hjc]
                exact hgz _ (s.get_mem _ _)
          · rw [hstep]
            rw [sumAmts_eraseIdx _ _ hcilen2 hcilen2, hgc, hsum2]
            show sumAmts s - (cp.2 - min |cp.2| |dp.2|) = sumAmts s
            rw [hPz]
            ring
          · rw [hstep]
            exact hm_ge
          · rw [hstep]
            exact hkeyne
        · rw [hstep, hcat, hdat]
    · have hPnz : cp.2 - min |cp.2| |dp.2| ≠ 0 := by
        intro h0
        apply hP
        rw [h0, abs_zero]
        norm_num
      by_cases hQ : abs (dp.2 + min |cp.2| |dp.2|) < 1/100
      · -- only the debit row is removed
        have hQz : dp.2 + min |cp.2| |dp.2| = 0 :=
          cents_eq_zero_of_abs_lt (cents_add hdC hm_cents) hQ
        have hstep : mcfStep s = (((s.set (maxCreditIdx s)
            (cp.1, cp.2 - min |cp.2| |dp.2|)).set (maxDebitIdx s)
            (dp.1, dp.2 + min |cp.2| |dp.2|)).eraseIdx (maxDebitIdx s),
            ⟨dp.1, cp.1, min |cp.2| |dp.2|⟩) := by
          rw [hres]
          simp only [hround]
          rw [if_pos hQ, if_neg hP, if_neg (fun h => hP h.2)]
        constructor
        · right
          refine ⟨?_, ?_, ?_, ?_, ?_⟩
          · rw [hstep]
            show (keys (((s.set (maxCreditIdx s) (cp.1, cp.2 - min |cp.2| |dp.2|)).set
              (maxDebitIdx s) (dp.1, dp.2 + min |cp.2| |dp.2|)).eraseIdx
              (maxDebitIdx s))).Nodup
            rw [keys_eraseIdx, hkeys2]
            exact hnd.sublist (List.eraseIdx_sublist _ _)
          · rw [hstep]
            intro p hp
            obtain ⟨j, hj, hjne, hget⟩ := mem_eraseIdx_imp _ _ hdilen2 p hp
            have hj0 : j < s.length := by rw [hs2len]; exact hj
            have hval : p = if maxDebitIdx s = j then (dp.1, dp.2 + min |cp.2| |dp.2|)
                else if maxCreditIdx s = j then (cp.1, cp.2 - min |cp.2| |dp.2|)
                else s.get ⟨j, hj0⟩ := by
              rw [← hget]
              exact set2_get s _ _ _ _ j hj0
            by_cases hjd : maxDebitIdx s = j
            · exact absurd hjd.symm hjne
            · by_cases hjc : maxCreditIdx s = j
              · rw [hval, if_neg hjd, if_pos hjc]
                exact ⟨hPnz, cents_sub hcC hm_cents⟩
              · rw [hval, if_neg hjd, if_neg hjc]
                exact hgz _ (s.get_mem _ _)
          · rw [hstep]
            rw [sumAmts_eraseIdx _ _ hdilen2 hdilen2, hgd, hsum2]
            show sumAmts s - (dp.2 + min |cp.2| |dp.2|) = sumAmts s
            rw [hQz]
            ring
          · rw [hstep]
            exact hm_ge
          · rw [hstep]
            exact hkeyne
        · rw [hstep, hcat, hdat]
      · -- nothing is removed
        have hQnz : dp.2 + min |cp.2| |dp.2| ≠ 0 := by
          intro h0
          apply hQ
          rw [h0, abs_zero]
          norm_num
        have hstep : mcfStep s = ((s.set (maxCreditIdx s)
            (cp.1, cp.2 - min |cp.2| |dp.2|)).set (maxDebitIdx s)
            (dp.1, dp.2 + min |cp.2| |dp.2|),
            ⟨dp.1, cp.1, min |cp.2| |dp.2|⟩) := by
          rw [hres]
          simp only [hround]
          rw [if_neg hQ, if_neg hP]
        constructor
        · right
          refine ⟨?_, ?_, ?_, ?_, ?_⟩
          · rw [hstep]
            show (keys ((s.set (maxCreditIdx s) (cp.1, cp.2 - min |cp.2| |dp.2|)).set
              (maxDebitIdx s) (dp.1, dp.2 + min |cp.2| |dp.2|))).Nodup
            rw [hkeys2]
            exact hnd
          · rw [hstep]
            intro p hp
            rcases List.mem_or_eq_of_mem_set hp with hp1 | rfl
            · rcases List.mem_or_eq_of_mem_set hp1 with hp2 | rfl
              · exact hgz p hp2
              · exact ⟨hPnz, cents_sub hcC hm_cents⟩
            · exact ⟨hQnz, cents_add hdC hm_cents⟩
          · rw [hstep]
            exact hsum2
          · rw [hstep]
            exact hm_ge
          · rw [hstep]
            exact hkeyne
        · rw [hstep, hcat, hdat]

/-- A stalled working state (one the iteration maps back to itself) never lets
the loop finish: the fuel runs out first. -/
lemma mcfRun_stall_none (s : List (ℕ × ℚ)) (hlen : 2 ≤ s.length)
    (hstall : (mcfStep s).1 = s) :
    ∀ fuel acc, mcfRun fuel s acc = none := by
  intro fuel
  induction fuel with
  | zero =>
    intro acc
    rw [mcfRun, if_neg (by omega)]
  | succ n ih =>
    intro acc
    rw [mcfRun, if_neg (by omega)]
    show mcfRun n (mcfStep s).1 (acc ++ [(mcfStep s).2]) = none
    rw [hstall]
    exact ih _

/-- Soundness of finished runs: every transfer a terminating run adds to the
accumulator moves at least one cent between two distinct users. -/
lemma mcfRun_sound : ∀ (fuel : ℕ) (s : List (ℕ × ℚ)) (acc ts : List Txn),
    (keys s).Nodup → (∀ p ∈ s, p.2 ≠ 0 ∧ Cents p.2) →
    mcfRun fuel s acc = some ts →
    ∀ t ∈ ts, t ∈ acc ∨ (1/100 ≤ t.amount ∧ t.fromUserId ≠ t.toUserId) := by
  intro fuel
  induction fuel with
  | zero =>
    intro s acc ts hnd hgz hrun t ht
    rw [mcfRun] at hrun
    by_cases h1 : s.length ≤ 1
    · rw [if_pos h1] at hrun
      left
      rw [← Option.some_inj.mp hrun] at ht
      exact ht
    · rw [if_neg h1] at hrun
      exact Option.noConfusion hrun
  | succ n ih =>
    intro s acc ts hnd hgz hrun t ht
    rw [mcfRun] at hrun
    by_cases h1 : s.length ≤ 1
    · rw [if_pos h1] at hrun
      left
      rw [← Option.some_inj.mp hrun] at ht
      exact ht
    · rw [if_neg h1] at hrun
      have hlen : 2 ≤ s.length := by omega
      have hgen := mcfStep_general s hnd hgz hlen
      have hrun2 : mcfRun n (mcfStep s).1 (acc ++ [(mcfStep s).2]) = some ts := hrun
      rcases hgen.1 with hstall | ⟨hnd2, hgz2, _, hamt, hne⟩
      · rw [hstall, mcfRun_stall_none s hlen hstall] at hrun2
        exact Option.noConfusion hrun2
      · rcases ih (mcfStep s).1 (acc ++ [(mcfStep s).2]) ts hnd2 hgz2 hrun2 t ht with hin | hgood
        · rcases List.mem_append.mp hin with h | h
          · exact Or.inl h
          · right
            have ht2 : t = (mcfStep s).2 := by simpa using h
            rw [ht2]
            exact ⟨hamt, hne⟩
        · exact Or.inr hgood

/-- Rounding the amounts does not change the keys of a balance list. -/
lemma keys_map_round2 (l : List (ℕ × ℚ)) :
    keys (l.map (fun p => (p.1, round2 p.2))) = keys l := by
  simp only [keys, List.map_map]
  rfl

/-- Every entry of the filtered working list minimizeCashFlow starts from is a
nonzero whole number of cents. -/
lemma nonzero_entries (l : List (ℕ × ℚ)) :
    ∀ p ∈ (l.map (fun p => (p.1, round2 p.2))).filter
      (fun p => decide (1/100 < |p.2|)), p.2 ≠ 0 ∧ Cents p.2 := by
  intro p hp
  obtain ⟨hmem, hcond⟩ := List.mem_filter.mp hp
  have hlt : 1/100 < |p.2| := of_decide_eq_true hcond
  obtain ⟨q, hq, rfl⟩ := List.mem_map.mp hmem
  refine ⟨fun h0 => ?_, cents_round2 _⟩
  have h0' : round2 q.2 = 0 := h0
  rw [h0'] at hlt
  norm_num at hlt

/-- A whole-cent entry above the epsilon survives the rounding map and the
noise filter unchanged. -/
lemma mem_nonzero_of_mem (l : List (ℕ × ℚ)) (p : ℕ × ℚ) (hp : p ∈ l)
    (hC : Cents p.2) (hlt : 1/100 < |p.2|) :
    p ∈ (l.map (fun p => (p.1, round2 p.2))).filter
      (fun p => decide (1/100 < |p.2|)) := by
  apply List.mem_filter.mpr
  constructor
  · apply List.mem_map.mpr
    exact ⟨p, hp, by rw [round2_cents hC]⟩
  · exact decide_eq_true hlt

/-- Value sum of the cons of a balance list. -/
lemma sumAmts_cons (q : ℕ × ℚ) (t : List (ℕ × ℚ)) :
    sumAmts (q :: t) = q.2 + sumAmts t := by
  simp [sumAmts]

/-- When every entry is whole cents and either zero or above the epsilon, the
rounding map and the noise filter preserve the value sum. -/
lemma sumAmts_nonzero (l : List (ℕ × ℚ)) (hC : ∀ p ∈ l, Cents p.2)
    (hbig : ∀ p ∈ l, p.2 = 0 ∨ 1/100 < |p.2|) :
    sumAmts ((l.map (fun p => (p.1, round2 p.2))).filter
      (fun p => decide (1/100 < |p.2|))) = sumAmts l := by
  induction l with
  | nil => rfl
  | cons q t ih =>
    have hq : Cents q.2 := hC q (List.mem_cons_self q t)
    have hr : round2 q.2 = q.2 := round2_cents hq
    have iht := ih (fun p hp => hC p (List.mem_cons_of_mem q hp))
      (fun p hp => hbig p (List.mem_cons_of_mem q hp))
    simp only [List.map_cons, List.filter_cons]
    by_cases hcond : (1:ℚ)/100 < |round2 q.2|
    · rw [if_pos (decide_eq_true hcond)]
      rw [sumAmts_cons, sumAmts_cons, iht]
      show round2 q.2 + sumAmts t = q.2 + sumAmts t
      rw [hr]
    · rw [if_neg (by simpa using hcond)]
      have h0 : q.2 = 0 := by
        rcases hbig q (List.mem_cons_self q t) with h0 | hbigq
        · exact h0
        · exact absurd (by rw [hr]; exact hbigq) hcond
      rw [iht, sumAmts_cons, h0, zero_add]

/-- C1: the spec's totals guarantee fails as stated, because the working-set
filter strictly drops balances whose absolute value does not exceed the 0.01
epsilon: on the zero-sum balances {user 0: +0.01, user 1: -0.01} the function
returns no transfers at all, so user 0 receives 0, not their original positive
balance of 0.01. -/
theorem C1_counterexample :
    sumAmts [(0, 1/100), (1, -1/100)] = 0 ∧ (0:ℚ) < 1/100 ∧
    minimizeCashFlow [(0, 1/100), (1, -1/100)] = some [] ∧
    totalTo 0 [] ≠ 1/100 := by
  refine ⟨by norm_num [sumAmts], by norm_num, ?_, by norm_num [totalTo]⟩
  norm_num [minimizeCashFlow, mcfRun, round2, List.filter, abs_neg, abs_div, abs_one,
    abs_of_pos]

/-- C1 (amended): on a zero-sum balance list with distinct users, whole-cent
amounts, and every amount either zero or strictly above the 0.01 epsilon,
minimizeCashFlow terminates and its transfers send each creditor exactly their
original positive balance and draw from each debtor exactly the absolute value
of their original negative balance. -/
theorem C1_totals_match_original_balances (l : List (ℕ × ℚ))
    (hnd : (keys l).Nodup) (hC : ∀ p ∈ l, Cents p.2) (hsum : sumAmts l = 0)
    (hbig : ∀ p ∈ l, p.2 = 0 ∨ 1/100 < |p.2|) :
    ∃ ts, minimizeCashFlow l = some ts ∧
      ∀ p ∈ l, (0 < p.2 → totalTo p.1 ts = p.2) ∧
        (p.2 < 0 → totalFrom p.1 ts = -p.2) := by
  set nz := (l.map (fun p => (p.1, round2 p.2))).filter
    (fun p => decide (1/100 < |p.2|)) with hnz
  have hnd2 : (keys nz).Nodup := by
    have h1 : keys (l.map (fun p => (p.1, round2 p.2))) = keys l := keys_map_round2 l
    have h2 : List.Sublist (keys nz) (keys (l.map (fun p => (p.1, round2 p.2)))) :=
      List.Sublist.map Prod.fst (List.filter_sublist _)
    rw [h1] at h2
    exact hnd.sublist h2
  have hgz2 : ∀ p ∈ nz, p.2 ≠ 0 ∧ Cents p.2 := nonzero_entries l
  have hsum2 : sumAmts nz = 0 := by rw [hnz, sumAmts_nonzero l hC hbig, hsum]
  obtain ⟨ts, hrun, htot⟩ := mcfRun_spec nz.length nz [] hnd2 hgz2 hsum2 le_rfl
  refine ⟨ts, ?_, ?_⟩
  · show mcfRun nz.length nz [] = some ts
    exact hrun
  · intro p hp
    by_cases hz : p.2 = 0
    · constructor
      · intro hpos
        rw [hz] at hpos
        exact absurd hpos (lt_irrefl 0)
      · intro hneg
        rw [hz] at hneg
        exact absurd hneg (lt_irrefl 0)
    · have hbigp : 1/100 < |p.2| := (hbig p hp).resolve_left hz
      have hmem : p ∈ nz := mem_nonzero_of_mem l p hp (hC p hp) hbigp
      have hamt : amtOf nz p.1 = p.2 := amtOf_of_mem_nodup nz hnd2 p hmem
      obtain ⟨h1, h2⟩ := htot p.1
      constructor
      · intro hpos
        rw [h1, hamt]
        show totalTo p.1 [] + max p.2 0 = p.2
        rw [show totalTo p.1 [] = 0 from rfl, max_eq_left (le_of_lt hpos), zero_add]
      · intro hneg
        rw [h2, hamt]
        show totalFrom p.1 [] + max (-p.2) 0 = -p.2
        rw [show totalFrom p.1 [] = 0 from rfl, max_eq_left (by linarith), zero_add]

theorem C1_witness :
    ∃ ts, minimizeCashFlow [(0, 60), (1, -30), (2, -30)] = some ts ∧
      ∀ p ∈ [((0:ℕ), (60:ℚ)), (1, -30), (2, -30)],
        (0 < p.2 → totalTo p.1 ts = p.2) ∧ (p.2 < 0 → totalFrom p.1 ts = -p.2) :=
  C1_totals_match_original_balances [(0, 60), (1, -30), (2, -30)] (by decide)
    (by
      intro p hp
      fin_cases hp
      · exact (cents_iff _).mpr ⟨6000, by norm_num⟩
      · exact (cents_iff _).mpr ⟨-3000, by norm_num⟩
      · exact (cents_iff _).mpr ⟨-3000, by norm_num⟩)
    (by norm_num [sumAmts])
    (by
      intro p hp
      fin_cases hp <;> norm_num [abs_of_pos, abs_of_neg])

/-- C3: on a zero-sum balance map (distinct users), every transfer in a
terminating run of minimizeCashFlow has strictly positive amount (in fact at
least one cent) and distinct from/to users. -/
theorem C3_transfers_positive_no_self (l : List (ℕ × ℚ))
    (hnd : (keys l).Nodup) (hsum : sumAmts l = 0) (ts : List Txn)
    (hrun : minimizeCashFlow l = some ts) :
    ∀ t ∈ ts, 0 < t.amount ∧ t.fromUserId ≠ t.toUserId := by
  intro t ht
  have hnd2 : (keys ((l.map (fun p => (p.1, round2 p.2))).filter
      (fun p => decide (1/100 < |p.2|)))).Nodup := by
    have h1 : keys (l.map (fun p => (p.1, round2 p.2))) = keys l := keys_map_round2 l
    have h2 : List.Sublist
        (keys ((l.map (fun p => (p.1, round2 p.2))).filter
          (fun p => decide (1/100 < |p.2|))))
        (keys (l.map (fun p => (p.1, round2 p.2)))) :=
      List.Sublist.map Prod.fst (List.filter_sublist _)
    rw [h1] at h2
    exact hnd.sublist h2
  have hrun2 : mcfRun ((l.map (fun p => (p.1, round2 p.2))).filter
      (fun p => decide (1/100 < |p.2|))).length
      ((l.map (fun p => (p.1, round2 p.2))).filter
        (fun p => decide (1/100 < |p.2|))) [] = some ts := hrun
  rcases mcfRun_sound _ _ [] ts hnd2 (nonzero_entries l) hrun2 t ht with hin | ⟨hamt, hne⟩
  · exact absurd hin (by simp)
  · exact ⟨by linarith, hne⟩

theorem C3_witness :
    0 < (Txn.amount ⟨1, 0, 1⟩) ∧ Txn.fromUserId ⟨1, 0, 1⟩ ≠ Txn.toUserId ⟨1, 0, 1⟩ :=
  C3_transfers_positive_no_self [(0, 1), (1, -1)] (by decide)
    (by norm_num [sumAmts]) [⟨1, 0, 1⟩]
    (by norm_num [minimizeCashFlow, mcfRun, mcfStep, maxCreditIdx, maxDebitIdx,
      amtAt, round2, List.range_succ, List.filter])
    ⟨1, 0, 1⟩ (by simp)

/-- C9: loop invariant of minimizeCashFlow.  First conjunct (exact values of
the working amounts): every iteration subtracts the same unrounded minAmount
from the selected creditor's working balance that it adds to the selected
debtor's, so the sum of the working amounts is unchanged by the iteration.
Remaining conjuncts (binary64 values, the number semantics of the source):
the recorded transfer amount parseFloat(minAmount.toFixed(2)) can differ from
the amount actually moved between the working balances.  Starting from the
rounded entry balances of the zero-sum input user 0: +0.3, user 1: -0.1,
user 2: -0.2, the first iteration moves the double 0.2 and leaves the
creditor at the double 0.09999999999999998 (the exact difference of the
doubles 0.3 and 0.2, which is not the double 0.1); in the second iteration
that value is the unrounded minAmount, both balance updates compute it
exactly (each floating-point result equals the exact sum, so the same amount
leaves the creditor and reaches the debtor), yet the transfer records the
double 0.1, which differs from the amount moved. -/
theorem C9_loop_invariant_rounded_record (s : List (ℕ × ℚ))
    (hnd : (keys s).Nodup) (hgz : ∀ p ∈ s, p.2 ≠ 0 ∧ Cents p.2)
    (hlen : 2 ≤ s.length) :
    sumAmts (mcfStep s).1 = sumAmts s ∧
    mcfStepFP [(0, fl (3/10)), (1, -fl (1/10)), (2, -fl (2/10))] =
      ([(0, 900719925474099 / 2^53), (1, -fl (1/10))], ⟨2, 0, fl (2/10)⟩) ∧
    min |amtAt [(0, 900719925474099 / 2^53), (1, -fl (1/10))]
        (maxCreditIdx [(0, 900719925474099 / 2^53), (1, -fl (1/10))])|
      |amtAt [(0, 900719925474099 / 2^53), (1, -fl (1/10))]
        (maxDebitIdx [(0, 900719925474099 / 2^53), (1, -fl (1/10))])| =
      900719925474099 / 2^53 ∧
    fl (900719925474099 / 2^53 - 900719925474099 / 2^53) =
      900719925474099 / 2^53 - 900719925474099 / 2^53 ∧
    fl (-fl (1/10) + 900719925474099 / 2^53) =
      -fl (1/10) + 900719925474099 / 2^53 ∧
    (mcfStepFP [(0, 900719925474099 / 2^53), (1, -fl (1/10))]).2.amount = fl (1/10) ∧
    fl (1/10) ≠ 900719925474099 / 2^53 := by
  refine ⟨?_, ?_, ?_, ?_, ?_, ?_, ?_⟩
  · have h := mcfStep_general s hnd hgz hlen
    rcases h.1 with hstall | ⟨_, _, hsum, _, _⟩
    · rw [hstall]
    · exact hsum
  · rw [fl_threeTenths, fl_tenth, fl_fifth]
    norm_num [mcfStepFP, maxCreditIdx, maxDebitIdx, amtAt, round2, List.range_succ,
      fl_zero, fl_neg, fl_hundredth, fl_drift, fl_fifth5, abs_of_pos, abs_of_neg, abs_neg]
  · rw [fl_tenth]
    norm_num [amtAt, maxCreditIdx, maxDebitIdx, List.range_succ, abs_of_pos,
      abs_of_neg, abs_neg]
  · norm_num [fl_zero]
  · rw [fl_tenth]
    norm_num [fl_neg, fl_pow55]
  · rw [fl_tenth]
    norm_num [mcfStepFP, maxCreditIdx, maxDebitIdx, amtAt, round2, List.range_succ,
      fl_zero, fl_neg, fl_hundredth, fl_tenth, fl_pow55, abs_of_pos, abs_of_neg, abs_neg]
  · rw [fl_tenth]
    norm_num

theorem C9_witness :
    sumAmts (mcfStep [(0, 1), (1, -1)]).1 = sumAmts [(0, 1), (1, -1)] :=
  (C9_loop_invariant_rounded_record [(0, 1), (1, -1)] (by decide)
    (by
      intro p hp
      fin_cases hp
      · exact ⟨by norm_num, (cents_iff _).mpr ⟨100, by norm_num⟩⟩
      · exact ⟨by norm_num, (cents_iff _).mpr ⟨-100, by norm_num⟩⟩)
    (by norm_num)).1
